import Mathlib

/-!
A shallow embedding, in Lean 4, of the repeater-content module of the
emmetio/html-expand repository (src/lib/repeater-content.js), together with
theorems about its behaviour.

Modelling conventions.

The abbreviation-tree node is the collaborator described in the design
document (section 3 and section 6): a node has a tag name, a textual value,
an ordered attribute mapping, an optional repeat state and a list of
children.  JavaScript `null`/absent string values are modelled by the empty
string, and the attribute list is an ordered mapping with unique keys
(section 3 calls `attributes` an "ordered mapping ... insertion order
preserved").  The repeat state of an unresolved node (`repeat.count ===
null` with the remaining fields absent) is modelled with `count := none`
and defaults `implicit := false`, `value := 0`, `index := 0`.

The shared token-scanner utility (`findUnescapedTokens`, `replaceRanges`
from lib/utils.js) is not part of the staged sources, so it is modelled
from the design document, section 4.5; see the doc comments on the two
functions.  The mutate-in-place JavaScript tree walk is rendered as a pure
rebuild of the tree; the walk visits every descendant of the walked node
(not the node itself), in document order, and per section 4.1 the repeat
expander also visits the descendants of freshly inserted clones.
-/

namespace Emmet

/-- One attribute of a node: a name/value pair.  A `null`/absent value is
modelled by the empty string (JavaScript truthiness of `attr.value`). -/
structure Attr where
  name : String
  value : String
deriving DecidableEq, Repr

/-- The `repeat` field of a node: `count` is `none` while the repetition
count is unresolved, and becomes `some n` once resolved. -/
structure RepeatState where
  count : Option Nat
  implicit : Bool
  value : Nat
  index : Nat
deriving DecidableEq, Repr

/-- An abbreviation-tree node, after the collaborator contract of the design
document: name, value, ordered attributes, optional repeat state, children. -/
inductive Node where
  | mk (name : String) (value : String) (attributes : List Attr)
       (rep : Option RepeatState) (children : List Node)
deriving Repr

/-- Tag name of a node. -/
def Node.name : Node → String
  | .mk nm _ _ _ _ => nm

/-- Textual value of a node (empty string for `null`). -/
def Node.value : Node → String
  | .mk _ v _ _ _ => v

/-- Ordered attribute list of a node. -/
def Node.attributes : Node → List Attr
  | .mk _ _ a _ _ => a

/-- Optional repeat state of a node. -/
def Node.rep : Node → Option RepeatState
  | .mk _ _ _ r _ => r

/-- Children of a node, in document order. -/
def Node.children : Node → List Node
  | .mk _ _ _ _ cs => cs

/-- Replace the value of a node (the JavaScript assignment `node.value = v`). -/
def Node.setValue : Node → String → Node
  | .mk nm _ a r cs, v => .mk nm v a r cs

/-- Replace the children list of a node, keeping everything else. -/
def Node.withChildren : Node → List Node → Node
  | .mk nm v a r _, cs => .mk nm v a r cs

@[simp] theorem name_mk (nm v : String) (a : List Attr) (r : Option RepeatState)
    (cs : List Node) : (Node.mk nm v a r cs).name = nm := rfl

@[simp] theorem value_mk (nm v : String) (a : List Attr) (r : Option RepeatState)
    (cs : List Node) : (Node.mk nm v a r cs).value = v := rfl

@[simp] theorem attributes_mk (nm v : String) (a : List Attr) (r : Option RepeatState)
    (cs : List Node) : (Node.mk nm v a r cs).attributes = a := rfl

@[simp] theorem rep_mk (nm v : String) (a : List Attr) (r : Option RepeatState)
    (cs : List Node) : (Node.mk nm v a r cs).rep = r := rfl

@[simp] theorem children_mk (nm v : String) (a : List Attr) (r : Option RepeatState)
    (cs : List Node) : (Node.mk nm v a r cs).children = cs := rfl

@[simp] theorem setValue_mk (nm v v2 : String) (a : List Attr) (r : Option RepeatState)
    (cs : List Node) : (Node.mk nm v a r cs).setValue v2 = Node.mk nm v2 a r cs := rfl

@[simp] theorem withChildren_mk (nm v : String) (a : List Attr) (r : Option RepeatState)
    (cs cs2 : List Node) : (Node.mk nm v a r cs).withChildren cs2 = Node.mk nm v a r cs2 := rfl

/-- Update-or-append on an attribute list: the collaborator's `setAttribute`
updates the attribute with the given name when present, otherwise appends a
new attribute at the end. -/
def setAttrList : List Attr → String → String → List Attr
  | [], nm, v => [⟨nm, v⟩]
  | a :: rest, nm, v => if a.name = nm then ⟨nm, v⟩ :: rest else a :: setAttrList rest nm v

/-- The collaborator's `node.setAttribute(name, value)`. -/
def Node.setAttribute : Node → String → String → Node
  | .mk n v a r cs, nm, vl => .mk n v (setAttrList a nm vl) r cs

@[simp] theorem setAttribute_mk (nm v nm2 v2 : String) (a : List Attr)
    (r : Option RepeatState) (cs : List Node) :
    (Node.mk nm v a r cs).setAttribute nm2 v2 = Node.mk nm v (setAttrList a nm2 v2) r cs := rfl

/-- The collaborator's `node.hasAttribute(name)`. -/
def Node.hasAttribute (n : Node) (nm : String) : Bool :=
  n.attributes.any (fun a => a.name == nm)

/-- Placeholder token for inserted content (`const placeholder = '$#'`). -/
def placeholder : String := "$#"

/-- Caret token (`const caret = '|'`). -/
def caret : String := "|"

/-- The escape marker of the token scanner (backslash-style escaping,
section 4.5). -/
def escapeMarker : Char := '\\'

/-- Modelled from the spec: the left-to-right scan behind
`findUnescapedTokens` of lib/utils.js, which is not among the staged
sources.  `tok` is the token, `pos` the index of the head of the remaining
character list, `esc` whether the previous character was the escape marker.
An occurrence of the token immediately preceded by the escape marker is
skipped as a match (section 4.5); an unescaped occurrence contributes the
pair (start index, token length). -/
def tokenRangesAux (tok : List Char) : List Char → Nat → Bool → List (Nat × Nat)
  | [], _, _ => []
  | c :: rest, pos, esc =>
    let tail := tokenRangesAux tok rest (pos + 1) (c == escapeMarker)
    if !tok.isEmpty && tok.isPrefixOf (c :: rest) && !esc then
      (pos, tok.length) :: tail
    else tail

/-- Modelled from the spec: `findUnescapedTokens(str, token)` of
lib/utils.js (section 4.5) — the ranges, in ascending order, of the
unescaped occurrences of `token` in `str`, each range given as
(start index, length). -/
def findUnescapedTokens (str tok : String) : List (Nat × Nat) :=
  tokenRangesAux tok.data str.data 0 false

/-- Modelled from the spec: the rebuilding scan behind `replaceRanges` of
lib/utils.js.  `value` replaces each listed range; an occurrence of the
matched token `tok` immediately preceded by the escape marker has the
marker stripped and the token kept as literal text (section 4.5:
"strips the escape marker preceding any escaped-but-matched token
elsewhere in the string").  `skip` counts characters still to swallow from
a region already rewritten. -/
def rrAux (value tok : List Char) : List Char → Nat → List (Nat × Nat) → Nat → List Char
  | [], _, _, _ => []
  | c :: rest, pos, ranges, skip =>
    match skip with
    | n + 1 => rrAux value tok rest (pos + 1) ranges n
    | 0 =>
      match ranges with
      | (s, l) :: rs =>
        if s = pos then value ++ rrAux value tok rest (pos + 1) rs (l - 1)
        else if c == escapeMarker && !tok.isEmpty && tok.isPrefixOf rest then
          tok ++ rrAux value tok rest (pos + 1) ((s, l) :: rs) tok.length
        else c :: rrAux value tok rest (pos + 1) ((s, l) :: rs) 0
      | [] =>
        if c == escapeMarker && !tok.isEmpty && tok.isPrefixOf rest then
          tok ++ rrAux value tok rest (pos + 1) [] tok.length
        else c :: rrAux value tok rest (pos + 1) [] 0

/-- Modelled from the spec: `replaceRanges(str, ranges, value)` of
lib/utils.js (section 4.5): replaces each range with `value` and strips the
escape marker preceding escaped occurrences of the matched token (the token
is read off the string at the first range; the function is only ever called
with the non-empty range list produced by `findUnescapedTokens`). -/
def replaceRanges (str : String) (ranges : List (Nat × Nat)) (value : String) : String :=
  match ranges with
  | [] => str
  | (s, l) :: _ => String.mk (rrAux value.data ((str.data.drop s).take l) str.data 0 ranges 0)

/-- Character class `\d` (digits, ASCII). -/
def isDigitCh (c : Char) : Bool := 48 ≤ c.toNat && c.toNat ≤ 57

/-- Character class `[a-z]` (ASCII lowercase). -/
def isLowerCh (c : Char) : Bool := 97 ≤ c.toNat && c.toNat ≤ 122

/-- Character class `[A-Z]` (ASCII uppercase). -/
def isUpperCh (c : Char) : Bool := 65 ≤ c.toNat && c.toNat ≤ 90

/-- Character class `[a-z]` under the case-insensitive flag of `reProto`. -/
def isAlphaCI (c : Char) : Bool := isLowerCh c || isUpperCh c

/-- Character class `\w` (word characters). -/
def isWordCh (c : Char) : Bool := isDigitCh c || isLowerCh c || isUpperCh c || c == '_'

/-- Character class `[\da-z\.-]` (host part of `reUrl`, domain of `reEmail`). -/
def urlHostCh (c : Char) : Bool := isDigitCh c || isLowerCh c || c == '.' || c == '-'

/-- Character class `[a-z\.]` (the 2-6 character TLD part). -/
def tldCh (c : Char) : Bool := isLowerCh c || c == '.'

/-- Character class `[\/\w \.-]` (path part of `reUrl`). -/
def pathCh (c : Char) : Bool := c == '/' || isWordCh c || c == ' ' || c == '.' || c == '-'

/-- Character class `[a-z0-9_\.-]` (local part of `reEmail`). -/
def emailLocalCh (c : Char) : Bool :=
  isLowerCh c || isDigitCh c || c == '_' || c == '.' || c == '-'

/-- Regular expressions over characters, for the anchored `test` calls of
repeater-content.js.  `ch p` matches one character satisfying `p`. -/
inductive Rx where
  | nul
  | eps
  | ch (p : Char → Bool)
  | seq (a b : Rx)
  | alt (a b : Rx)
  | star (a : Rx)

/-- Whether a regular expression accepts the empty string. -/
def Rx.nullable : Rx → Bool
  | .nul => false
  | .eps => true
  | .ch _ => false
  | .seq a b => a.nullable && b.nullable
  | .alt a b => a.nullable || b.nullable
  | .star _ => true

/-- Concatenation with unit and absorbing laws applied, to keep derivatives
small. -/
def mkSeq : Rx → Rx → Rx
  | .nul, _ => .nul
  | .eps, b => b
  | _, .nul => .nul
  | a, .eps => a
  | a, b => .seq a b

/-- Alternation with the empty language absorbed, to keep derivatives small. -/
def mkAlt : Rx → Rx → Rx
  | .nul, b => b
  | a, .nul => a
  | a, b => .alt a b

/-- Brzozowski derivative of a regular expression by one character. -/
def Rx.deriv : Rx → Char → Rx
  | .nul, _ => .nul
  | .eps, _ => .nul
  | .ch p, c => if p c then .eps else .nul
  | .seq a b, c =>
    if a.nullable then mkAlt (mkSeq (a.deriv c) b) (b.deriv c)
    else mkSeq (a.deriv c) b
  | .alt a b, c => mkAlt (a.deriv c) (b.deriv c)
  | .star a, c => mkSeq (a.deriv c) (.star a)

/-- Whether `r` matches the whole character list (derivative matching). -/
def rxMatchEnd : Rx → List Char → Bool
  | r, [] => r.nullable
  | r, c :: cs => rxMatchEnd (r.deriv c) cs

/-- Whether `r` matches some leading segment of the character list — the
semantics of an `^`-anchored, not `$`-anchored, `test` call. -/
def rxMatchStart : Rx → List Char → Bool
  | r, [] => r.nullable
  | r, c :: cs => r.nullable || rxMatchStart (r.deriv c) cs

/-- The regular expression matching a literal string. -/
def rxStr (s : String) : Rx :=
  s.data.foldr (fun c acc => Rx.seq (Rx.ch (fun x => x == c)) acc) Rx.eps

/-- `e?` as an alternation with the empty string. -/
def rxOpt (a : Rx) : Rx := Rx.alt a Rx.eps

/-- `e+` as `e e*`. -/
def rxPlus (a : Rx) : Rx := Rx.seq a (Rx.star a)

/-- `[a-z\.]{2,6}`: two mandatory and four optional TLD characters. -/
def rxTld : Rx :=
  Rx.seq (Rx.ch tldCh) (Rx.seq (Rx.ch tldCh)
    (Rx.seq (rxOpt (Rx.ch tldCh)) (Rx.seq (rxOpt (Rx.ch tldCh))
      (Rx.seq (rxOpt (Rx.ch tldCh)) (rxOpt (Rx.ch tldCh))))))

/-- The URL pattern of repeater-content.js:
`^((?:https?|ftp|file):\/\/)?([\da-z\.-]+)\.([a-z\.]{2,6})([\/\w \.-]*)*\/?$`. -/
def reUrl : Rx :=
  Rx.seq (rxOpt (Rx.seq
      (Rx.alt (Rx.alt (Rx.seq (rxStr "http") (rxOpt (rxStr "s"))) (rxStr "ftp")) (rxStr "file"))
      (rxStr "://")))
    (Rx.seq (rxPlus (Rx.ch urlHostCh))
      (Rx.seq (Rx.ch (fun c => c == '.'))
        (Rx.seq rxTld
          (Rx.seq (Rx.star (Rx.star (Rx.ch pathCh)))
            (rxOpt (Rx.ch (fun c => c == '/')))))))

/-- The email pattern of repeater-content.js:
`^([a-z0-9_\.-]+)@([\da-z\.-]+)\.([a-z\.]{2,6})$`. -/
def reEmail : Rx :=
  Rx.seq (rxPlus (Rx.ch emailLocalCh))
    (Rx.seq (Rx.ch (fun c => c == '@'))
      (Rx.seq (rxPlus (Rx.ch urlHostCh))
        (Rx.seq (Rx.ch (fun c => c == '.')) rxTld)))

/-- The scheme pattern of repeater-content.js: `^([a-z]+:)?\/\/` with the `i`
flag. -/
def reProto : Rx :=
  Rx.seq (rxOpt (Rx.seq (rxPlus (Rx.ch isAlphaCI)) (Rx.ch (fun c => c == ':'))))
    (Rx.seq (Rx.ch (fun c => c == '/')) (Rx.ch (fun c => c == '/')))

/-- `reUrl.test(content)`: the pattern is anchored on both sides. -/
def reUrlTest (s : String) : Bool := rxMatchEnd reUrl s.data

/-- `reEmail.test(content)`: the pattern is anchored on both sides. -/
def reEmailTest (s : String) : Bool := rxMatchEnd reEmail s.data

/-- `reProto.test(content)`: the pattern is anchored at the start only. -/
def reProtoTest (s : String) : Bool := rxMatchStart reProto s.data

/-- `replacePlaceholder(str, value, _state)` of repeater-content.js, with the
mutable `_state.replaced` flag returned as the second component: when the
string holds unescaped placeholder tokens they are all replaced with `value`
and the flag is true, otherwise the string is returned unchanged. -/
def replacePlaceholderCore (str value : String) : String × Bool :=
  let ranges := findUnescapedTokens str placeholder
  if ranges.isEmpty then (str, false)
  else (replaceRanges str ranges value, true)

/-- ASCII lowercasing of one character, modelling the JavaScript
`toLowerCase` call on tag names (tag names are ASCII). -/
def charLowerAscii (c : Char) : Char :=
  if 65 <= c.toNat && c.toNat <= 90 then Char.ofNat (c.toNat + 32) else c

/-- ASCII lowercasing of a string (`node.name.toLowerCase()`). -/
def toLowerAscii (s : String) : String := String.mk (s.data.map charLowerAscii)

/-- The tail of `setNodeContent` past the caret early-return: the `<a>`
special case (href heuristics) followed by the final `node.value = content`
assignment.  Split out of `setNodeContent` only to encode the JavaScript
early `return`. -/
def setNodeContentRest (node : Node) (content : String) : Node :=
  let node1 :=
    if toLowerAscii node.name == "a" || node.hasAttribute "href" then
      if reUrlTest content then
        node.setAttribute "href" ((if reProtoTest content then "" else "http://") ++ content)
      else if reEmailTest content then
        node.setAttribute "href" ("mailto:" ++ content)
      else node
    else node
  node1.setValue content

/-- `setNodeContent(node, content)` of repeater-content.js: replace unescaped
caret tokens in a non-empty value and return; otherwise apply the link
heuristics and overwrite the value. -/
def setNodeContent (node : Node) (content : String) : Node :=
  if node.value ≠ "" then
    let ranges := findUnescapedTokens node.value caret
    if ranges.isEmpty then setNodeContentRest node content
    else node.setValue (replaceRanges node.value ranges content)
  else setNodeContentRest node content

/-- The descent of `findDeepestNode` rendered on a children list: rewrite the
deepest node (repeatedly the last child) of the last element of the list.
Used to express `setNodeContent(findDeepestNode(node), content)`, which
mutates the found node in place. -/
def setDeepestList (content : String) : List Node → List Node
  | [] => []
  | [Node.mk nm v a r cs] =>
    match cs with
    | [] => [setNodeContent (.mk nm v a r []) content]
    | c :: cs2 => [Node.mk nm v a r (setDeepestList content (c :: cs2))]
  | x :: y :: rest => x :: setDeepestList content (y :: rest)

/-- `setNodeContent(findDeepestNode(node), content)` as a pure rewrite of the
tree rooted at `node`. -/
def setDeepestNodeContent (node : Node) (content : String) : Node :=
  match node with
  | .mk nm v a r [] => setNodeContent (.mk nm v a r []) content
  | .mk nm v a r (c :: cs) => .mk nm v a r (setDeepestList content (c :: cs))

/-- The node reached from the last element of a children list by repeatedly
following the last-child link (`none` on an empty list). -/
def findDeepestList : List Node → Option Node
  | [] => none
  | [Node.mk nm v a r cs] =>
    match cs with
    | [] => some (.mk nm v a r [])
    | c :: cs2 => findDeepestList (c :: cs2)
  | _ :: y :: rest => findDeepestList (y :: rest)

/-- `findDeepestNode(node)` of repeater-content.js: follow the last-child
link while children exist. -/
def findDeepestNode (node : Node) : Node :=
  match node with
  | .mk _ _ _ _ [] => node
  | .mk _ _ _ _ (c :: cs) => (findDeepestList (c :: cs)).getD node

/-- `insertContentIntoPlaceholder(node, content)` of repeater-content.js:
replace unescaped placeholder tokens in the node's value and in each
non-empty attribute value, and report whether any replacement happened.
The JavaScript iterates the attribute list and writes each changed value
back under its own name via `setAttribute`; since the attribute list is an
ordered mapping with unique keys (design document, section 3) this is the
pointwise update below. -/
def insertContentIntoPlaceholder : Node → String → Node × Bool
  | .mk nm v a r cs, content =>
    let pv := replacePlaceholderCore v content
    let replaced := pv.2 || a.any (fun x => x.value != "" && (replacePlaceholderCore x.value content).2)
    let attrs := a.map (fun x =>
      if x.value != "" then (⟨x.name, (replacePlaceholderCore x.value content).1⟩ : Attr) else x)
    (.mk nm pv.1 attrs r cs, replaced)

/-- The walk `node.walk(child => inserted |= insertContentIntoPlaceholder(child,
content))` of `insertContent`, over a list of nodes and (recursively) all
their descendants, in document order.  Returns the rewritten nodes and the
accumulated flag. -/
def placeholderWalkList (content : String) : List Node → List Node × Bool
  | [] => ([], false)
  | Node.mk nm v a r cs :: rest =>
    let p := insertContentIntoPlaceholder (.mk nm v a r cs) content
    let q := placeholderWalkList content cs
    let t := placeholderWalkList content rest
    (p.1.withChildren q.1 :: t.1, p.2 || q.2 || t.2)

/-- `insertContent(node, content)` of repeater-content.js: run the
placeholder replacement on the node and its whole subtree; if nothing was
replaced, set the content on the deepest descendant instead. -/
def insertContent (node : Node) (content : String) : Node :=
  let p := insertContentIntoPlaceholder node content
  let q := placeholderWalkList content p.1.children
  let node2 := p.1.withChildren q.1
  if p.2 || q.2 then node2 else setDeepestNodeContent node2 content

/-- Number of nodes in a forest (each node counted with its subtree). -/
def nodeCountList : List Node → Nat
  | [] => 0
  | Node.mk _ _ _ _ cs :: rest => 1 + nodeCountList cs + nodeCountList rest

/-- Number of nodes in the subtree rooted at `n`, the node included. -/
def nodeCount (n : Node) : Nat := 1 + nodeCountList n.children

theorem nodeCountList_cons (n : Node) (rest : List Node) :
    nodeCountList (n :: rest) = 1 + nodeCountList n.children + nodeCountList rest := by
  cases n with
  | mk nm v a r cs => simp [nodeCountList]

theorem children_setValue (n : Node) (v : String) : (n.setValue v).children = n.children := by
  cases n with
  | mk nm v0 a r cs => simp

theorem children_setAttribute (n : Node) (nm v : String) :
    (n.setAttribute nm v).children = n.children := by
  cases n with
  | mk nm0 v0 a r cs => simp

theorem children_withChildren (n : Node) (cs : List Node) :
    (n.withChildren cs).children = cs := by
  cases n with
  | mk nm v a r cs0 => simp

theorem children_setNodeContentRest (n : Node) (c : String) :
    (setNodeContentRest n c).children = n.children := by
  dsimp only [setNodeContentRest]
  rw [children_setValue]
  split
  · split
    · rw [children_setAttribute]
    · split
      · rw [children_setAttribute]
      · rfl
  · rfl

theorem children_setNodeContent (n : Node) (c : String) :
    (setNodeContent n c).children = n.children := by
  dsimp only [setNodeContent]
  split
  · split
    · exact children_setNodeContentRest n c
    · rw [children_setValue]
  · exact children_setNodeContentRest n c

theorem nodeCountList_setDeepestList (content : String) (cs : List Node) :
    nodeCountList (setDeepestList content cs) = nodeCountList cs := by
  induction cs using setDeepestList.induct content with
  | case1 => simp [setDeepestList]
  | case2 nm v a r =>
    simp [setDeepestList, nodeCountList_cons, children_setNodeContent]
  | case3 nm v a r c cs2 ih =>
    simp only [setDeepestList, nodeCountList_cons, children_mk] at ih ⊢
    omega
  | case4 x y rest ih =>
    simp only [setDeepestList, nodeCountList_cons] at ih ⊢
    omega

theorem nodeCount_setDeepestNodeContent (n : Node) (c : String) :
    nodeCount (setDeepestNodeContent n c) = nodeCount n := by
  cases n with
  | mk nm v a r cs =>
    cases cs with
    | nil =>
      simp [setDeepestNodeContent, nodeCount, children_setNodeContent]
    | cons c0 cs2 =>
      simp [setDeepestNodeContent, nodeCount, nodeCountList_setDeepestList]

theorem icip_fst_children (n : Node) (c : String) :
    (insertContentIntoPlaceholder n c).1.children = n.children := by
  cases n with
  | mk nm v a r cs => simp [insertContentIntoPlaceholder]

theorem nodeCountList_pwl (content : String) (cs : List Node) :
    nodeCountList (placeholderWalkList content cs).1 = nodeCountList cs := by
  induction cs using placeholderWalkList.induct content with
  | case1 => simp [placeholderWalkList]
  | case2 nm v a r cs rest ih1 ih2 =>
    simp [placeholderWalkList, insertContentIntoPlaceholder, nodeCountList_cons, ih1, ih2]

theorem nodeCount_insertContent (n : Node) (c : String) :
    nodeCount (insertContent n c) = nodeCount n := by
  dsimp only [insertContent]
  split
  · simp [nodeCount, children_withChildren, nodeCountList_pwl, icip_fst_children]
  · rw [nodeCount_setDeepestNodeContent]
    simp [nodeCount, children_withChildren, nodeCountList_pwl, icip_fst_children]

theorem nodeCountList_children_lt (x y : Node) (xs : List Node)
    (h : nodeCount y = nodeCount x) :
    nodeCountList y.children < nodeCountList (x :: xs) := by
  have h1 : nodeCount y = 1 + nodeCountList y.children := rfl
  have h2 : nodeCount x = 1 + nodeCountList x.children := rfl
  have h3 := nodeCountList_cons x xs
  omega

theorem nodeCountList_tail_lt (x : Node) (xs : List Node) :
    nodeCountList xs < nodeCountList (x :: xs) := by
  have h := nodeCountList_cons x xs
  omega

/-- Whether a node carries `repeat` with `repeat.implicit` set. -/
def isImplicitNode (n : Node) : Bool :=
  match n.rep with
  | some r => r.implicit
  | none => false

/-- The `repeat.index` of a node (0 when no repeat state is present; only
read on nodes whose repeat state exists). -/
def repIndexOf (n : Node) : Nat :=
  match n.rep with
  | some r => r.index
  | none => 0

/-- The walk of `insert`: visit every node of the forest in document order
and, on each node whose `repeat.implicit` is set, run `insertContent` with
`content[node.repeat.index]` (out-of-range reads modelled by the empty
string).  The walk continues into the just-rewritten node's children, as the
in-place JavaScript walk does; the flag records whether any implicit-repeat
node was met. -/
def insertWalkList (content : List String) : List Node → List Node × Bool
  | [] => ([], false)
  | n :: rest =>
    let n1 := if isImplicitNode n then insertContent n (content.getD (repIndexOf n) "") else n
    let p := insertWalkList content n1.children
    let q := insertWalkList content rest
    (n1.withChildren p.1 :: q.1, isImplicitNode n || p.2 || q.2)
termination_by cs => nodeCountList cs
decreasing_by
  · exact nodeCountList_children_lt _ _ _ (by split <;> [exact nodeCount_insertContent ..; rfl])
  · exact nodeCountList_tail_lt _ _

/-- `insert(tree, content)` of repeater-content.js on a non-empty content
list: walk the tree inserting content into implicit-repeat nodes; when none
was found, set the newline-joined content on the deepest node of the tree. -/
def insertList (tree : Node) (content : List String) : Node :=
  let p := insertWalkList content tree.children
  let t1 := tree.withChildren p.1
  if p.2 then t1 else setDeepestNodeContent t1 (String.intercalate "\n" content)

/-- The dynamically-typed `content` argument of the module: a string, an
array of strings, or any other value. -/
inductive ContentArg where
  | str (s : String)
  | list (l : List String)
  | other
deriving DecidableEq, Repr

/-- `insert(tree, content)` of repeater-content.js: anything but a non-empty
array leaves the tree alone. -/
def insert (tree : Node) : ContentArg → Node
  | .list (s :: rest) => insertList tree (s :: rest)
  | _ => tree

/-- The content normalization of the default export: a string is wrapped
into a one-element array; everything else is passed through. -/
def normalizeContent : ContentArg → ContentArg
  | .str s => .list [s]
  | c => c

/-- Whether a content argument is an array (`Array.isArray`). -/
def ContentArg.isListArg : ContentArg → Bool
  | .list _ => true
  | _ => false

/-- `prepare`'s walk over a children list: an unresolved-repeat node
(`repeat` present with `count === null`) is replaced by `amount` clones,
the clone for index `i` carrying `repeat = (count := amount, implicit :=
true, value := i+1, index := i)`; every other node is kept.  Descendants are
processed too — for clones as well, per section 4.1 of the design document
("traversal must visit newly-inserted clones' own descendants"). -/
def prepareChildren (amount : Nat) : List Node → List Node
  | [] => []
  | Node.mk nm v a r cs :: rest =>
    (match r with
     | some rp =>
       if rp.count.isNone then
         (List.range amount).map (fun i =>
           Node.mk nm v a (some ⟨some amount, true, i + 1, i⟩) (prepareChildren amount cs))
       else [Node.mk nm v a (some rp) (prepareChildren amount cs)]
     | none => [Node.mk nm v a none (prepareChildren amount cs)]) ++ prepareChildren amount rest

/-- `prepare(tree, amount)` of repeater-content.js (`amount = amount || 1`). -/
def prepare (tree : Node) (amount : Nat) : Node :=
  tree.withChildren (prepareChildren (if amount = 0 then 1 else amount) tree.children)

/-- The default export of repeater-content.js: normalize the content
argument, and on a non-empty array run `prepare` with the array length and
then `insert`. -/
def repeaterContent (tree : Node) (content : ContentArg) : Node :=
  match normalizeContent content with
  | .list (s :: rest) => insert (prepare tree (s :: rest).length) (.list (s :: rest))
  | _ => tree

/-- Whether a node carries an unresolved repeat state (`node.repeat` present
with `node.repeat.count === null`): the guard of `prepare`'s walk. -/
def unresolvedRepeat (n : Node) : Bool :=
  match n.rep with
  | some r => r.count.isNone
  | none => false

/-- Whether some node of the forest, descendants included, carries an
unresolved repeat state. -/
def anyUnresolvedList : List Node → Bool
  | [] => false
  | Node.mk nm v a r cs :: rest =>
    unresolvedRepeat (.mk nm v a r cs) || (anyUnresolvedList cs || anyUnresolvedList rest)

/-- Whether some node of the forest, descendants included, has
`repeat.implicit` set. -/
def anyImplicitList : List Node → Bool
  | [] => false
  | Node.mk nm v a r cs :: rest =>
    isImplicitNode (.mk nm v a r cs) || (anyImplicitList cs || anyImplicitList rest)

/-- Whether the node itself holds an unescaped placeholder token, in its
value or in a non-empty attribute value. -/
def hasPlaceholderNode (n : Node) : Bool :=
  !(findUnescapedTokens n.value placeholder).isEmpty ||
    n.attributes.any (fun x => x.value != "" && !(findUnescapedTokens x.value placeholder).isEmpty)

/-- Whether some node of the forest, descendants included, holds an
unescaped placeholder token. -/
def hasPlaceholderList : List Node → Bool
  | [] => false
  | Node.mk nm v a r cs :: rest =>
    hasPlaceholderNode (.mk nm v a r cs) || (hasPlaceholderList cs || hasPlaceholderList rest)

/-- Whether the subtree rooted at `n` (the node included) holds an unescaped
placeholder token: the condition under which `insertContent` skips its
deepest-descendant fallback. -/
def hasPlaceholderTree (n : Node) : Bool :=
  hasPlaceholderNode n || hasPlaceholderList n.children

/-- The pure placeholder-replacement pass over a forest: apply
`insertContentIntoPlaceholder`'s rewrite to every node, descendants
included, changing nothing else. -/
def phMapList (content : String) : List Node → List Node
  | [] => []
  | Node.mk nm v a r cs :: rest =>
    (insertContentIntoPlaceholder (.mk nm v a r cs) content).1.withChildren
      (phMapList content cs) :: phMapList content rest

/-- The pure placeholder-replacement pass over the subtree rooted at `n`. -/
def phMapTree (content : String) (n : Node) : Node :=
  (insertContentIntoPlaceholder n content).1.withChildren (phMapList content n.children)

/-- The skeleton of a node: everything except values and attributes.  Two
nodes with the same skeleton have the same tree structure, tag names and
repeat states. -/
inductive Skel where
  | mk (name : String) (rep : Option RepeatState) (kids : List Skel)
deriving Repr

/-- The skeletons of a forest, in order. -/
def skelList : List Node → List Skel
  | [] => []
  | Node.mk nm _ _ r cs :: rest => .mk nm r (skelList cs) :: skelList rest

/-- The skeleton of a single node. -/
def skel (n : Node) : Skel := .mk n.name n.rep (skelList n.children)

/-- The clone that `prepare` makes of an unresolved node `n` for clone index
`i`: a deep copy with the repeat state overwritten to
`(count := amount, implicit := true, value := i+1, index := i)`. -/
def cloneResolved (amount : Nat) (n : Node) (i : Nat) : Node :=
  Node.mk n.name n.value n.attributes (some ⟨some amount, true, i + 1, i⟩) n.children

theorem withChildren_self (n : Node) : n.withChildren n.children = n := by
  cases n with
  | mk nm v a r cs => simp

theorem anyUnresolvedList_cons (x : Node) (rest : List Node) :
    anyUnresolvedList (x :: rest) =
      (unresolvedRepeat x || (anyUnresolvedList x.children || anyUnresolvedList rest)) := by
  cases x with
  | mk nm v a r cs => simp [anyUnresolvedList]

theorem anyImplicitList_cons (x : Node) (rest : List Node) :
    anyImplicitList (x :: rest) =
      (isImplicitNode x || (anyImplicitList x.children || anyImplicitList rest)) := by
  cases x with
  | mk nm v a r cs => simp [anyImplicitList]

theorem prepareChildren_append (amount : Nat) :
    ∀ (xs ys : List Node),
      prepareChildren amount (xs ++ ys) = prepareChildren amount xs ++ prepareChildren amount ys
  | [], ys => by simp [prepareChildren]
  | Node.mk nm v a r cs :: rest, ys => by
    have ih := prepareChildren_append amount rest ys
    rw [List.cons_append]
    cases r with
    | some rp =>
      by_cases h : rp.count.isNone = true
      · simp [prepareChildren, h, ih, List.append_assoc]
      · simp [prepareChildren, h, ih, List.append_assoc]
    | none => simp [prepareChildren, ih, List.append_assoc]

theorem prepareChildren_frame (amount : Nat) :
    ∀ (cs : List Node), anyUnresolvedList cs = false → prepareChildren amount cs = cs
  | [], _ => by simp [prepareChildren]
  | Node.mk nm v a r cs :: rest, h => by
    rw [anyUnresolvedList_cons] at h
    simp only [Bool.or_eq_false_iff] at h
    obtain ⟨h1, h2, h3⟩ := h
    simp only [children_mk] at h2
    have hcs := prepareChildren_frame amount cs h2
    have hrest := prepareChildren_frame amount rest h3
    cases r with
    | some rp =>
      have hcount : rp.count.isNone = false := by
        simpa [unresolvedRepeat] using h1
      simp [prepareChildren, hcount, hcs, hrest]
    | none => simp [prepareChildren, hcs, hrest]

theorem anyUnresolvedList_append (xs ys : List Node) :
    anyUnresolvedList (xs ++ ys) = (anyUnresolvedList xs || anyUnresolvedList ys) := by
  induction xs with
  | nil => simp [anyUnresolvedList]
  | cons x rest ih =>
    rw [List.cons_append, anyUnresolvedList_cons, anyUnresolvedList_cons, ih]
    simp [Bool.or_assoc]

theorem prepareChildren_resolves (amount : Nat) :
    ∀ (cs : List Node), anyUnresolvedList (prepareChildren amount cs) = false
  | [] => by simp [prepareChildren, anyUnresolvedList]
  | Node.mk nm v a r cs :: rest => by
    have hcs := prepareChildren_resolves amount cs
    have hrest := prepareChildren_resolves amount rest
    cases r with
    | some rp =>
      by_cases h : rp.count.isNone = true
      · simp only [prepareChildren, h, if_true, anyUnresolvedList_append, hrest, Bool.or_false]
        induction (List.range amount) with
        | nil => simp [anyUnresolvedList]
        | cons i is ihr =>
          rw [List.map_cons, anyUnresolvedList_cons]
          simp [unresolvedRepeat, hcs, ihr]
      · simp [prepareChildren, h, anyUnresolvedList_cons, unresolvedRepeat, hcs, hrest]
    | none => simp [prepareChildren, anyUnresolvedList_cons, unresolvedRepeat, hcs, hrest]

theorem prepareChildren_unresolved_head (amount : Nat) (nm v : String) (a : List Attr)
    (rp : RepeatState) (cs rest : List Node) (h : rp.count = none) :
    prepareChildren amount (Node.mk nm v a (some rp) cs :: rest) =
      (List.range amount).map (fun i =>
        Node.mk nm v a (some ⟨some amount, true, i + 1, i⟩) (prepareChildren amount cs)) ++
        prepareChildren amount rest := by
  simp [prepareChildren, h]

theorem prepareChildren_keep_head (amount : Nat) (n : Node) (rest : List Node)
    (h1 : unresolvedRepeat n = false) (h2 : anyUnresolvedList n.children = false) :
    prepareChildren amount (n :: rest) = n :: prepareChildren amount rest := by
  cases n with
  | mk nm v a r cs =>
    simp only [children_mk] at h2
    have hcs := prepareChildren_frame amount cs h2
    cases r with
    | some rp =>
      have hcount : rp.count.isNone = false := by
        simpa [unresolvedRepeat] using h1
      simp [prepareChildren, hcount, hcs]
    | none => simp [prepareChildren, hcs]

/-- Claim C8 (corrected): a node with no repeat state, or with a repeat count
already resolved, and whose own subtree holds no unresolved-repeat node, is
left completely untouched by `prepare`: it is neither cloned nor removed, and
it keeps its repeat state, value, attributes and children, whatever the
amount. -/
theorem prepare_keeps_resolved (nm v : String) (a : List Attr) (r : Option RepeatState)
    (pre post : List Node) (n : Node) (amount : Nat)
    (h1 : unresolvedRepeat n = false) (h2 : anyUnresolvedList n.children = false) :
    prepare (Node.mk nm v a r (pre ++ n :: post)) amount =
      Node.mk nm v a r
        (prepareChildren (if amount = 0 then 1 else amount) pre ++
          n :: prepareChildren (if amount = 0 then 1 else amount) post) := by
  dsimp only [prepare]
  rw [withChildren_mk, children_mk, prepareChildren_append,
    prepareChildren_keep_head _ n post h1 h2]

/-- Claim C8, witness: a childless resolved node between two others survives
`prepare` unchanged in place. -/
theorem prepare_keeps_resolved_witness :
    prepare (Node.mk "ul" "" [] none
        [Node.mk "li" "x" [] (some ⟨some 3, true, 1, 0⟩) []]) 2 =
      Node.mk "ul" "" [] none
        (prepareChildren 2 [] ++
          Node.mk "li" "x" [] (some ⟨some 3, true, 1, 0⟩) [] :: prepareChildren 2 []) := by
  have h := prepare_keeps_resolved "ul" "" [] none [] []
    (Node.mk "li" "x" [] (some ⟨some 3, true, 1, 0⟩) []) 2 (by decide)
    (by simp [anyUnresolvedList])
  simpa using h

/-- Claim C8, counterexample: the claim as stated fails for a node with no
repeat state whose child is an unresolved-repeat node — `prepare` rewrites
its children list (the child is expanded in place), so the node is not left
untouched. -/
theorem prepare_keeps_resolved_cex :
    Node.children (prepare (Node.mk "r" "" [] none
        [Node.mk "x" "" [] none [Node.mk "u" "" [] (some ⟨none, false, 0, 0⟩) []]]) 2) ≠
      [Node.mk "x" "" [] none [Node.mk "u" "" [] (some ⟨none, false, 0, 0⟩) []]] := by
  have he : Node.children (prepare (Node.mk "r" "" [] none
      [Node.mk "x" "" [] none [Node.mk "u" "" [] (some ⟨none, false, 0, 0⟩) []]]) 2) =
      [Node.mk "x" "" [] none
        [Node.mk "u" "" [] (some ⟨some 2, true, 1, 0⟩) [],
         Node.mk "u" "" [] (some ⟨some 2, true, 2, 1⟩) []]] := by
    simp [prepare, prepareChildren, List.range_succ]
  rw [he]
  intro h
  simp at h

/-- Claim C1 (corrected): an unresolved-repeat node whose own subtree holds
no further unresolved node is, for any amount of at least one, replaced in
place by exactly that many deep clones, in ascending index order, the clone
for index `i` carrying `repeat = (count := amount, implicit := true, value
:= i+1, index := i)`; afterwards no unresolved-repeat node remains anywhere
below the tree root. -/
theorem prepare_expands_unresolved (nm v : String) (a : List Attr) (r : Option RepeatState)
    (pre post : List Node) (n : Node) (amount : Nat)
    (h1 : unresolvedRepeat n = true) (h2 : anyUnresolvedList n.children = false)
    (h3 : 1 ≤ amount) :
    prepare (Node.mk nm v a r (pre ++ n :: post)) amount =
      Node.mk nm v a r
        (prepareChildren amount pre ++
          ((List.range amount).map (cloneResolved amount n) ++ prepareChildren amount post)) ∧
    anyUnresolvedList
      (Node.children (prepare (Node.mk nm v a r (pre ++ n :: post)) amount)) = false := by
  have hz : ¬(amount = 0) := by omega
  constructor
  · dsimp only [prepare]
    rw [if_neg hz, withChildren_mk, children_mk, prepareChildren_append]
    cases n with
    | mk nm2 v2 a2 r2 cs2 =>
      cases r2 with
      | none => simp [unresolvedRepeat] at h1
      | some rp =>
        have hcount : rp.count = none := by
          simpa [unresolvedRepeat, Option.isNone_iff_eq_none] using h1
        simp only [children_mk] at h2
        rw [prepareChildren_unresolved_head amount nm2 v2 a2 rp cs2 post hcount,
          prepareChildren_frame amount cs2 h2]
        simp [cloneResolved]
  · dsimp only [prepare]
    rw [if_neg hz]
    simp only [withChildren_mk, children_mk]
    exact prepareChildren_resolves amount _

/-- Claim C1, witness: a single childless unresolved `li` node with amount 3,
as in the design document's scenario. -/
theorem prepare_expands_unresolved_witness :
    prepare (Node.mk "ul" "" [] none
        [Node.mk "li" "" [] (some ⟨none, false, 0, 0⟩) []]) 3 =
      Node.mk "ul" "" [] none
        (prepareChildren 3 [] ++
          ((List.range 3).map (cloneResolved 3 (Node.mk "li" "" [] (some ⟨none, false, 0, 0⟩) [])) ++
            prepareChildren 3 [])) ∧
    anyUnresolvedList (Node.children (prepare (Node.mk "ul" "" [] none
        [Node.mk "li" "" [] (some ⟨none, false, 0, 0⟩) []]) 3)) = false := by
  have h := prepare_expands_unresolved "ul" "" [] none [] []
    (Node.mk "li" "" [] (some ⟨none, false, 0, 0⟩) []) 3 (by decide)
    (by simp [anyUnresolvedList]) (by omega)
  simpa using h

/-- Claim C1, counterexample: the claim as stated fails when the unresolved
node itself holds a nested unresolved node — the inserted copies are not
plain deep clones, the nested unresolved descendant being expanded inside
them (design document, section 4.1). -/
theorem prepare_expands_unresolved_cex :
    Node.children (prepare (Node.mk "r" "" [] none
        [Node.mk "u" "" [] (some ⟨none, false, 0, 0⟩)
          [Node.mk "w" "" [] (some ⟨none, false, 0, 0⟩) []]]) 2) ≠
      (List.range 2).map (cloneResolved 2 (Node.mk "u" "" [] (some ⟨none, false, 0, 0⟩)
        [Node.mk "w" "" [] (some ⟨none, false, 0, 0⟩) []])) := by
  have he : Node.children (prepare (Node.mk "r" "" [] none
      [Node.mk "u" "" [] (some ⟨none, false, 0, 0⟩)
        [Node.mk "w" "" [] (some ⟨none, false, 0, 0⟩) []]]) 2) =
      [Node.mk "u" "" [] (some ⟨some 2, true, 1, 0⟩)
        [Node.mk "w" "" [] (some ⟨some 2, true, 1, 0⟩) [],
         Node.mk "w" "" [] (some ⟨some 2, true, 2, 1⟩) []],
       Node.mk "u" "" [] (some ⟨some 2, true, 2, 1⟩)
        [Node.mk "w" "" [] (some ⟨some 2, true, 1, 0⟩) [],
         Node.mk "w" "" [] (some ⟨some 2, true, 2, 1⟩) []]] := by
    simp [prepare, prepareChildren, List.range_succ]
  rw [he]
  intro h
  simp [cloneResolved, List.range_succ] at h

/-- Claim C6 (confirmed): `insert` with an empty array, and `insert` with a
plain string (the empty string included) — a value that is not an array —
are no-ops returning the very tree that was passed in. -/
theorem insert_noop_on_empty (tree : Node) :
    insert tree (ContentArg.list []) = tree ∧ insert tree (ContentArg.str "") = tree :=
  ⟨rfl, rfl⟩

/-- Claim C7, counterexample: a non-string, non-array content argument is not
normalized into a one-element list (the entry point wraps strings only), and
the transform does nothing on it. -/
theorem normalize_nonstring_cex :
    ContentArg.isListArg (normalizeContent ContentArg.other) = false ∧
      repeaterContent (Node.mk "div" "" [] none []) ContentArg.other =
        Node.mk "div" "" [] none [] :=
  ⟨rfl, rfl⟩

/-- Claim C7 (corrected): the single-content shorthand applies to string
content — a string argument is wrapped into a one-element list before
`prepare` and `insert` run — while a non-string, non-array argument is left
as it is and the entry point returns the tree unchanged. -/
theorem normalize_string_content (s : String) (tree : Node) :
    normalizeContent (ContentArg.str s) = ContentArg.list [s] ∧
      repeaterContent tree (ContentArg.str s) =
        insert (prepare tree 1) (ContentArg.list [s]) ∧
      repeaterContent tree ContentArg.other = tree :=
  ⟨rfl, rfl, rfl⟩

/-- Claim C5, counterexample: in a string whose only placeholder token is
escaped, the replacement pass finds no unescaped range, returns the string
unchanged, and so the escape marker is not stripped — the escaped occurrence
does not appear as the bare literal token. -/
theorem escaped_placeholder_cex :
    replacePlaceholderCore "\\$#" "X" = ("\\$#", false) ∧ "\\$#" ≠ "$#" :=
  ⟨by decide, by decide⟩

theorem tra_shift (tok : List Char) (k : Nat) :
    ∀ (cs : List Char) (pos : Nat) (esc : Bool),
      tokenRangesAux tok cs (pos + k) esc =
        (tokenRangesAux tok cs pos esc).map (fun r => (r.1 + k, r.2))
  | [], _, _ => by simp [tokenRangesAux]
  | c :: rest, pos, esc => by
    have ih := tra_shift tok k rest (pos + 1) (c == escapeMarker)
    have harith : pos + k + 1 = pos + 1 + k := by omega
    by_cases hm : (!tok.isEmpty && tok.isPrefixOf (c :: rest) && !esc) = true
    · simp only [tokenRangesAux]
      rw [if_pos hm, if_pos hm, List.map_cons, harith, ih]
    · simp only [tokenRangesAux]
      rw [if_neg hm, if_neg hm, harith, ih]

theorem tra_sound (tok : List Char) :
    ∀ (cs : List Char) (pos : Nat) (esc : Bool) (r : Nat × Nat),
      r ∈ tokenRangesAux tok cs pos esc →
      pos ≤ r.1 ∧ r.2 = tok.length ∧ (cs.drop (r.1 - pos)).take tok.length = tok
  | [], _, _, _ => by simp [tokenRangesAux]
  | c :: rest, pos, esc, r => by
    intro hr
    simp only [tokenRangesAux] at hr
    by_cases hm : (!tok.isEmpty && tok.isPrefixOf (c :: rest) && !esc) = true
    · rw [if_pos hm] at hr
      rcases List.mem_cons.mp hr with h | h
      · subst h
        refine ⟨Nat.le_refl pos, rfl, ?_⟩
        simp only [Nat.sub_self, List.drop_zero]
        have hp : tok.isPrefixOf (c :: rest) = true := by
          simp only [Bool.and_eq_true] at hm
          exact hm.1.2
        obtain ⟨t, ht⟩ := List.isPrefixOf_iff_prefix.mp hp
        rw [← ht, List.take_left]
      · obtain ⟨ih1, ih2, ih3⟩ := tra_sound tok rest (pos + 1) (c == escapeMarker) r h
        refine ⟨by omega, ih2, ?_⟩
        have hk : r.1 - pos = (r.1 - (pos + 1)) + 1 := by omega
        rw [hk, List.drop_succ_cons]
        exact ih3
    · rw [if_neg hm] at hr
      obtain ⟨ih1, ih2, ih3⟩ := tra_sound tok rest (pos + 1) (c == escapeMarker) r hr
      refine ⟨by omega, ih2, ?_⟩
      have hk : r.1 - pos = (r.1 - (pos + 1)) + 1 := by omega
      rw [hk, List.drop_succ_cons]
      exact ih3

theorem rra_shift (value tok : List Char) (k : Nat) :
    ∀ (cs : List Char) (pos : Nat) (rngs : List (Nat × Nat)) (skip : Nat),
      rrAux value tok cs (pos + k) (rngs.map (fun r => (r.1 + k, r.2))) skip =
        rrAux value tok cs pos rngs skip
  | [], _, _, _ => by simp [rrAux]
  | c :: rest, pos, rngs, skip => by
    have harith : pos + k + 1 = pos + 1 + k := by omega
    match skip with
    | n + 1 =>
      have ih := rra_shift value tok k rest (pos + 1) rngs n
      simp only [rrAux]
      rw [harith, ih]
    | 0 =>
      match rngs with
      | [] =>
        have ih0 := rra_shift value tok k rest (pos + 1) [] 0
        have ihT := rra_shift value tok k rest (pos + 1) [] tok.length
        simp only [List.map_nil] at ih0 ihT
        by_cases hc : (c == escapeMarker && !tok.isEmpty && tok.isPrefixOf rest) = true
        · simp only [rrAux, List.map_nil]
          rw [if_pos hc, if_pos hc, harith, ihT]
        · simp only [rrAux, List.map_nil]
          rw [if_neg hc, if_neg hc, harith, ih0]
      | (s0, l) :: rs =>
        by_cases hs : s0 = pos
        · have ih := rra_shift value tok k rest (pos + 1) rs (l - 1)
          simp only [rrAux, List.map_cons]
          rw [if_pos (by omega : s0 + k = pos + k), if_pos hs, harith, ih]
        · have ih0 := rra_shift value tok k rest (pos + 1) ((s0, l) :: rs) 0
          have ihT := rra_shift value tok k rest (pos + 1) ((s0, l) :: rs) tok.length
          simp only [List.map_cons] at ih0 ihT
          by_cases hc : (c == escapeMarker && !tok.isEmpty && tok.isPrefixOf rest) = true
          · simp only [rrAux, List.map_cons]
            rw [if_neg (by omega : ¬(s0 + k = pos + k)), if_neg hs, if_pos hc, if_pos hc,
              harith, ihT]
          · simp only [rrAux, List.map_cons]
            rw [if_neg (by omega : ¬(s0 + k = pos + k)), if_neg hs, if_neg hc, if_neg hc,
              harith, ih0]

theorem ipf_hash (t : List Char) : List.isPrefixOf ['$', '#'] ('#' :: t) = false := rfl

theorem ipf_backslash (t : List Char) : List.isPrefixOf ['$', '#'] ('\\' :: t) = false := rfl

theorem ipf_tok (t : List Char) : List.isPrefixOf ['$', '#'] ('$' :: '#' :: t) = true := by
  simp [List.isPrefixOf]

theorem ipf_single (c : Char) : List.isPrefixOf ['$', '#'] [c] = false := by
  rw [show List.isPrefixOf ['$', '#'] [c] = (('$' : Char) == c && false) from rfl,
    Bool.and_false]

theorem ipf_append (xs r : List Char) :
    List.isPrefixOf ['$', '#'] (xs ++ '\\' :: r) = List.isPrefixOf ['$', '#'] xs :=
  match xs with
  | [] => rfl
  | [_] => rfl
  | _ :: _ :: _ => by simp [List.isPrefixOf]

theorem tok_head_shape (c : Char) (as' : List Char)
    (h : List.isPrefixOf ['$', '#'] (c :: as') = true) :
    c = '$' ∧ ∃ t, as' = '#' :: t := by
  obtain ⟨u, hu⟩ := List.isPrefixOf_iff_prefix.mp h
  have hu' : '$' :: '#' :: u = c :: as' := hu
  injection hu' with h1 h2
  exact ⟨h1.symm, u, h2.symm⟩

theorem tok_shape (as' : List Char) (h : List.isPrefixOf ['$', '#'] as' = true) :
    ∃ t, as' = '$' :: '#' :: t := by
  obtain ⟨u, hu⟩ := List.isPrefixOf_iff_prefix.mp h
  exact ⟨u, hu.symm⟩

theorem tra_sound_bound (tok : List Char) :
    ∀ (cs : List Char) (pos : Nat) (esc : Bool) (r : Nat × Nat),
      r ∈ tokenRangesAux tok cs pos esc → r.1 + tok.length ≤ pos + cs.length
  | [], _, _, _ => by simp [tokenRangesAux]
  | c :: rest, pos, esc, r => by
    intro hr
    simp only [tokenRangesAux] at hr
    by_cases hm : (!tok.isEmpty && tok.isPrefixOf (c :: rest) && !esc) = true
    · rw [if_pos hm] at hr
      rcases List.mem_cons.mp hr with h | h
      · subst h
        have hp : tok.isPrefixOf (c :: rest) = true := by
          simp only [Bool.and_eq_true] at hm
          exact hm.1.2
        obtain ⟨t, ht⟩ := List.isPrefixOf_iff_prefix.mp hp
        have hlen := congrArg List.length ht
        simp only [List.length_append, List.length_cons] at hlen
        show pos + tok.length ≤ pos + (c :: rest).length
        simp only [List.length_cons]
        omega
      · have ih := tra_sound_bound tok rest (pos + 1) (c == escapeMarker) r h
        simp only [List.length_cons]
        omega
    · rw [if_neg hm] at hr
      have ih := tra_sound_bound tok rest (pos + 1) (c == escapeMarker) r hr
      simp only [List.length_cons]
      omega

theorem tra_split (bs : List Char) :
    ∀ (as : List Char) (pos : Nat) (esc : Bool),
      tokenRangesAux ['$', '#'] (as ++ '\\' :: '$' :: '#' :: bs) pos esc =
        tokenRangesAux ['$', '#'] as pos esc ++
          tokenRangesAux ['$', '#'] bs (pos + as.length + 3) false
  | [], pos, esc => by
    rw [List.nil_append]
    simp only [tokenRangesAux]
    rw [ipf_backslash, ipf_tok, ipf_hash,
      show ('\\' == escapeMarker) = true from rfl,
      show ('$' == escapeMarker) = false from rfl,
      show ('#' == escapeMarker) = false from rfl]
    simp only [Bool.and_false, Bool.false_and, Bool.and_true, Bool.not_true, Bool.not_false,
      Bool.true_and, Bool.false_eq_true, if_false, List.nil_append, List.length_nil]
  | c :: as', pos, esc => by
    have ih := tra_split bs as' (pos + 1) (c == escapeMarker)
    have hb : List.isPrefixOf ['$', '#'] (c :: (as' ++ '\\' :: '$' :: '#' :: bs)) =
        List.isPrefixOf ['$', '#'] (c :: as') :=
      ipf_append (c :: as') ('$' :: '#' :: bs)
    rw [List.cons_append]
    by_cases hm : (!(['$', '#'] : List Char).isEmpty &&
        List.isPrefixOf ['$', '#'] (c :: as') && !esc) = true
    · simp only [tokenRangesAux]
      rw [hb, if_pos hm, if_pos hm, ih]
      simp only [List.cons_append, List.length_cons]
      rw [show pos + 1 + as'.length + 3 = pos + (as'.length + 1) + 3 from by omega]
    · simp only [tokenRangesAux]
      rw [hb, if_neg hm, if_neg hm, ih]
      simp only [List.length_cons]
      rw [show pos + 1 + as'.length + 3 = pos + (as'.length + 1) + 3 from by omega]

theorem rr_skip (value tok : List Char) (c : Char) (rest : List Char) (pos n : Nat)
    (R : List (Nat × Nat)) :
    rrAux value tok (c :: rest) pos R (n + 1) = rrAux value tok rest (pos + 1) R n := rfl

theorem rr_hit (value tok : List Char) (c : Char) (rest : List Char) (pos l : Nat)
    (rs : List (Nat × Nat)) :
    rrAux value tok (c :: rest) pos ((pos, l) :: rs) 0 =
      value ++ rrAux value tok rest (pos + 1) rs (l - 1) := by
  simp only [rrAux]
  exact if_pos trivial

theorem rr_nohit (value tok : List Char) (c : Char) (rest : List Char) (pos : Nat)
    (R : List (Nat × Nat)) (hR : ∀ r ∈ R, r.1 ≠ pos) :
    rrAux value tok (c :: rest) pos R 0 =
      if c == escapeMarker && !tok.isEmpty && tok.isPrefixOf rest then
        tok ++ rrAux value tok rest (pos + 1) R tok.length
      else c :: rrAux value tok rest (pos + 1) R 0 := by
  match R with
  | [] => rfl
  | (s0, l) :: rs =>
    have hs : ¬(s0 = pos) := hR (s0, l) (List.mem_cons_self (s0, l) rs)
    simp only [rrAux]
    rw [if_neg hs]

theorem rr_marker (value bs : List Char) (p : Nat) (B : List (Nat × Nat))
    (hB : ∀ r ∈ B, p + 3 ≤ r.1) :
    rrAux value ['$', '#'] ('\\' :: '$' :: '#' :: bs) p B 0 =
      '$' :: '#' :: rrAux value ['$', '#'] bs (p + 3) B 0 := by
  have hno : ∀ r ∈ B, r.1 ≠ p := by
    intro r hr
    have := hB r hr
    omega
  rw [rr_nohit value ['$', '#'] '\\' ('$' :: '#' :: bs) p B hno]
  rw [if_pos (show ('\\' == escapeMarker && !(['$', '#'] : List Char).isEmpty &&
    List.isPrefixOf ['$', '#'] ('$' :: '#' :: bs)) = true from by
      simp [List.isPrefixOf, escapeMarker])]
  rw [show (['$', '#'] : List Char).length = 2 from rfl]
  rw [rr_skip, rr_skip]
  rw [show p + 1 + 1 + 1 = p + 3 from by omega]
  rfl

theorem tra_tok_cons (t : List Char) (p : Nat) :
    tokenRangesAux ['$', '#'] ('$' :: '#' :: t) p false =
      (p, 2) :: tokenRangesAux ['$', '#'] t (p + 2) false := by
  simp only [tokenRangesAux]
  rw [ipf_tok, ipf_hash, show ('$' == escapeMarker) = false from rfl,
    show ('#' == escapeMarker) = false from rfl,
    show (['$', '#'] : List Char).length = 2 from rfl]
  simp only [List.isEmpty_cons, Bool.not_false, Bool.and_true, Bool.true_and, Bool.and_false,
    Bool.false_and, Bool.false_eq_true, if_false, if_true]

theorem tra_tok_escaped (t : List Char) (p : Nat) :
    tokenRangesAux ['$', '#'] ('$' :: '#' :: t) p true =
      tokenRangesAux ['$', '#'] t (p + 2) false := by
  simp only [tokenRangesAux]
  rw [ipf_tok, ipf_hash, show ('$' == escapeMarker) = false from rfl,
    show ('#' == escapeMarker) = false from rfl]
  simp only [List.isEmpty_cons, Bool.not_false, Bool.not_true, Bool.and_true, Bool.true_and,
    Bool.and_false, Bool.false_and, Bool.false_eq_true, if_false]

theorem rr_split_match (value bs t : List Char) (pos : Nat) (B : List (Nat × Nat))
    (ih : rrAux value ['$', '#'] (t ++ '\\' :: '$' :: '#' :: bs) (pos + 2)
          (tokenRangesAux ['$', '#'] t (pos + 2) false ++ B) 0 =
        rrAux value ['$', '#'] t (pos + 2) (tokenRangesAux ['$', '#'] t (pos + 2) false) 0 ++
          '$' :: '#' :: rrAux value ['$', '#'] bs (pos + 2 + t.length + 3) B 0) :
    rrAux value ['$', '#'] (('$' :: '#' :: t) ++ '\\' :: '$' :: '#' :: bs) pos
        (tokenRangesAux ['$', '#'] ('$' :: '#' :: t) pos false ++ B) 0 =
      rrAux value ['$', '#'] ('$' :: '#' :: t) pos
          (tokenRangesAux ['$', '#'] ('$' :: '#' :: t) pos false) 0 ++
        '$' :: '#' :: rrAux value ['$', '#'] bs (pos + ('$' :: '#' :: t).length + 3) B 0 := by
  rw [tra_tok_cons t pos]
  simp only [List.cons_append]
  rw [rr_hit, rr_hit, show (2 : Nat) - 1 = 1 from rfl, rr_skip, rr_skip,
    show pos + 1 + 1 = pos + 2 from by omega, ih]
  simp only [List.append_assoc, List.length_cons]
  rw [show pos + 2 + t.length + 3 = pos + (t.length + 1 + 1) + 3 from by omega]

theorem rr_split_emit (value bs : List Char) (c : Char) (as' : List Char) (pos : Nat)
    (esc : Bool) (B : List (Nat × Nat))
    (hm : ¬((!(['$', '#'] : List Char).isEmpty &&
        List.isPrefixOf ['$', '#'] (c :: as') && !esc) = true))
    (hstrip : ¬((c == escapeMarker && !(['$', '#'] : List Char).isEmpty &&
        List.isPrefixOf ['$', '#'] as') = true))
    (hBgt : ∀ r ∈ B, pos < r.1)
    (ih : rrAux value ['$', '#'] (as' ++ '\\' :: '$' :: '#' :: bs) (pos + 1)
          (tokenRangesAux ['$', '#'] as' (pos + 1) (c == escapeMarker) ++ B) 0 =
        rrAux value ['$', '#'] as' (pos + 1)
            (tokenRangesAux ['$', '#'] as' (pos + 1) (c == escapeMarker)) 0 ++
          '$' :: '#' :: rrAux value ['$', '#'] bs (pos + 1 + as'.length + 3) B 0) :
    rrAux value ['$', '#'] ((c :: as') ++ '\\' :: '$' :: '#' :: bs) pos
        (tokenRangesAux ['$', '#'] (c :: as') pos esc ++ B) 0 =
      rrAux value ['$', '#'] (c :: as') pos
          (tokenRangesAux ['$', '#'] (c :: as') pos esc) 0 ++
        '$' :: '#' :: rrAux value ['$', '#'] bs (pos + (c :: as').length + 3) B 0 := by
  have hs : tokenRangesAux ['$', '#'] (c :: as') pos esc =
      tokenRangesAux ['$', '#'] as' (pos + 1) (c == escapeMarker) := by
    simp only [tokenRangesAux]
    rw [if_neg hm]
  rw [hs, List.cons_append]
  have hno : ∀ r ∈ tokenRangesAux ['$', '#'] as' (pos + 1) (c == escapeMarker) ++ B,
      r.1 ≠ pos := by
    intro r hr
    rcases List.mem_append.mp hr with h | h
    · have := (tra_sound ['$', '#'] as' (pos + 1) (c == escapeMarker) r h).1
      omega
    · have := hBgt r h
      omega
  have hnoS : ∀ r ∈ tokenRangesAux ['$', '#'] as' (pos + 1) (c == escapeMarker),
      r.1 ≠ pos := by
    intro r hr
    have := (tra_sound ['$', '#'] as' (pos + 1) (c == escapeMarker) r hr).1
    omega
  rw [rr_nohit value ['$', '#'] c (as' ++ '\\' :: '$' :: '#' :: bs) pos _ hno,
    rr_nohit value ['$', '#'] c as' pos _ hnoS]
  rw [ipf_append as' ('$' :: '#' :: bs)]
  rw [if_neg hstrip, if_neg hstrip, ih]
  simp only [List.cons_append, List.length_cons]
  rw [show pos + 1 + as'.length + 3 = pos + (as'.length + 1) + 3 from by omega]

theorem rr_split_strip (value bs u : List Char) (pos : Nat) (esc : Bool)
    (B : List (Nat × Nat))
    (hBgt : ∀ r ∈ B, pos < r.1)
    (ih : rrAux value ['$', '#'] (u ++ '\\' :: '$' :: '#' :: bs) (pos + 3)
          (tokenRangesAux ['$', '#'] u (pos + 3) false ++ B) 0 =
        rrAux value ['$', '#'] u (pos + 3) (tokenRangesAux ['$', '#'] u (pos + 3) false) 0 ++
          '$' :: '#' :: rrAux value ['$', '#'] bs (pos + 3 + u.length + 3) B 0) :
    rrAux value ['$', '#'] (('\\' :: '$' :: '#' :: u) ++ '\\' :: '$' :: '#' :: bs) pos
        (tokenRangesAux ['$', '#'] ('\\' :: '$' :: '#' :: u) pos esc ++ B) 0 =
      rrAux value ['$', '#'] ('\\' :: '$' :: '#' :: u) pos
          (tokenRangesAux ['$', '#'] ('\\' :: '$' :: '#' :: u) pos esc) 0 ++
        '$' :: '#' :: rrAux value ['$', '#'] bs
          (pos + ('\\' :: '$' :: '#' :: u).length + 3) B 0 := by
  have hs : tokenRangesAux ['$', '#'] ('\\' :: '$' :: '#' :: u) pos esc =
      tokenRangesAux ['$', '#'] u (pos + 3) false := by
    simp only [tokenRangesAux]
    rw [ipf_backslash, ipf_tok, ipf_hash, show ('\\' == escapeMarker) = true from rfl,
      show ('$' == escapeMarker) = false from rfl,
      show ('#' == escapeMarker) = false from rfl]
    simp only [List.isEmpty_cons, Bool.not_false, Bool.not_true, Bool.and_true, Bool.true_and,
      Bool.and_false, Bool.false_and, Bool.false_eq_true, if_false]
  rw [hs]
  have hno : ∀ r ∈ tokenRangesAux ['$', '#'] u (pos + 3) false ++ B, r.1 ≠ pos := by
    intro r hr
    rcases List.mem_append.mp hr with h | h
    · have := (tra_sound ['$', '#'] u (pos + 3) false r h).1
      omega
    · have := hBgt r h
      omega
  have hnoS : ∀ r ∈ tokenRangesAux ['$', '#'] u (pos + 3) false, r.1 ≠ pos := by
    intro r hr
    have := (tra_sound ['$', '#'] u (pos + 3) false r hr).1
    omega
  simp only [List.cons_append]
  rw [rr_nohit value ['$', '#'] '\\' ('$' :: '#' :: (u ++ '\\' :: '$' :: '#' :: bs)) pos _ hno,
    rr_nohit value ['$', '#'] '\\' ('$' :: '#' :: u) pos _ hnoS]
  rw [if_pos (show ('\\' == escapeMarker && !(['$', '#'] : List Char).isEmpty &&
      List.isPrefixOf ['$', '#'] ('$' :: '#' :: (u ++ '\\' :: '$' :: '#' :: bs))) = true from by
    simp [List.isPrefixOf, escapeMarker])]
  rw [if_pos (show ('\\' == escapeMarker && !(['$', '#'] : List Char).isEmpty &&
      List.isPrefixOf ['$', '#'] ('$' :: '#' :: u)) = true from by
    simp [List.isPrefixOf, escapeMarker])]
  rw [show (['$', '#'] : List Char).length = 2 from rfl]
  rw [rr_skip, rr_skip, rr_skip, rr_skip,
    show pos + 1 + 1 + 1 = pos + 3 from by omega, ih]
  simp only [List.cons_append, List.append_assoc, List.length_cons]
  rw [show pos + 3 + u.length + 3 = pos + (u.length + 1 + 1 + 1) + 3 from by omega]

theorem rr_split (value bs : List Char) :
    ∀ (as : List Char) (pos : Nat) (esc : Bool) (B : List (Nat × Nat)),
      (∀ r ∈ B, pos + as.length + 3 ≤ r.1) →
      rrAux value ['$', '#'] (as ++ '\\' :: '$' :: '#' :: bs) pos
          (tokenRangesAux ['$', '#'] as pos esc ++ B) 0 =
        rrAux value ['$', '#'] as pos (tokenRangesAux ['$', '#'] as pos esc) 0 ++
          '$' :: '#' :: rrAux value ['$', '#'] bs (pos + as.length + 3) B 0
  | [], pos, esc, B => by
    intro hB
    simp only [tokenRangesAux, List.nil_append, List.length_nil, Nat.add_zero]
    rw [rr_marker value bs pos B (by
      intro r hr
      have := hB r hr
      simp only [List.length_nil] at this
      omega)]
    rfl
  | [c], pos, esc, B => by
    intro hB
    have hBgt : ∀ r ∈ B, pos < r.1 := by
      intro r hr
      have := hB r hr
      omega
    have hm0 : ¬((!(['$', '#'] : List Char).isEmpty &&
        List.isPrefixOf ['$', '#'] (c :: ([] : List Char)) && !esc) = true) := by
      rw [ipf_single]
      simp
    have hstrip0 : ¬((c == escapeMarker && !(['$', '#'] : List Char).isEmpty &&
        List.isPrefixOf ['$', '#'] ([] : List Char)) = true) := by
      rw [show List.isPrefixOf ['$', '#'] ([] : List Char) = false from rfl]
      simp
    exact rr_split_emit value bs c [] pos esc B hm0 hstrip0 hBgt
      (rr_split value bs [] (pos + 1) (c == escapeMarker) B (by
        intro r hr
        have := hB r hr
        simp only [List.length_cons, List.length_nil] at this ⊢
        omega))
  | [c, d], pos, esc, B => by
    intro hB
    have hBgt : ∀ r ∈ B, pos < r.1 := by
      intro r hr
      have := hB r hr
      omega
    by_cases hm : (!(['$', '#'] : List Char).isEmpty &&
        List.isPrefixOf ['$', '#'] (c :: [d]) && !esc) = true
    · simp only [Bool.and_eq_true, Bool.not_eq_true'] at hm
      obtain ⟨⟨-, hpre⟩, hesc⟩ := hm
      subst hesc
      obtain ⟨hc, t, ht⟩ := tok_head_shape c [d] hpre
      subst hc
      injection ht with hd htrest
      subst hd
      exact rr_split_match value bs [] pos B
        (rr_split value bs [] (pos + 2) false B (by
          intro r hr
          have := hB r hr
          simp only [List.length_cons, List.length_nil] at this ⊢
          omega))
    · have hstrip : ¬((c == escapeMarker && !(['$', '#'] : List Char).isEmpty &&
          List.isPrefixOf ['$', '#'] [d]) = true) := by
        rw [ipf_single]
        simp
      exact rr_split_emit value bs c [d] pos esc B hm hstrip hBgt
        (rr_split value bs [d] (pos + 1) (c == escapeMarker) B (by
          intro r hr
          have := hB r hr
          simp only [List.length_cons, List.length_nil] at this ⊢
          omega))
  | c :: d :: e :: cs, pos, esc, B => by
    intro hB
    have hBgt : ∀ r ∈ B, pos < r.1 := by
      intro r hr
      have := hB r hr
      omega
    by_cases hm : (!(['$', '#'] : List Char).isEmpty &&
        List.isPrefixOf ['$', '#'] (c :: d :: e :: cs) && !esc) = true
    · simp only [Bool.and_eq_true, Bool.not_eq_true'] at hm
      obtain ⟨⟨-, hpre⟩, hesc⟩ := hm
      subst hesc
      obtain ⟨hc, t, ht⟩ := tok_head_shape c (d :: e :: cs) hpre
      subst hc
      injection ht with hd htrest
      subst hd
      exact rr_split_match value bs (e :: cs) pos B
        (rr_split value bs (e :: cs) (pos + 2) false B (by
          intro r hr
          have := hB r hr
          simp only [List.length_cons] at this ⊢
          omega))
    · by_cases hstrip : (c == escapeMarker && !(['$', '#'] : List Char).isEmpty &&
          List.isPrefixOf ['$', '#'] (d :: e :: cs)) = true
      · simp only [Bool.and_eq_true] at hstrip
        obtain ⟨⟨hc, -⟩, hpre⟩ := hstrip
        rw [beq_iff_eq, show escapeMarker = '\\' from rfl] at hc
        subst hc
        obtain ⟨u, hu⟩ := tok_shape (d :: e :: cs) hpre
        injection hu with hd hu2
        subst hd
        injection hu2 with he hu3
        subst he
        subst hu3
        exact rr_split_strip value bs cs pos esc B hBgt
          (rr_split value bs cs (pos + 3) false B (by
            intro r hr
            have := hB r hr
            simp only [List.length_cons] at this ⊢
            omega))
      · exact rr_split_emit value bs c (d :: e :: cs) pos esc B hm hstrip hBgt
          (rr_split value bs (d :: e :: cs) (pos + 1) (c == escapeMarker) B (by
            intro r hr
            have := hB r hr
            simp only [List.length_cons] at this ⊢
            omega))

theorem strcat3 (x y : List Char) :
    String.mk x ++ "$#" ++ String.mk y = String.mk (x ++ '$' :: '#' :: y) := by
  show String.mk ((x ++ ['$', '#']) ++ y) = String.mk (x ++ '$' :: '#' :: y)
  rw [List.append_assoc]
  rfl

/-- Claim C5 (corrected): for every string written `a ++ "\$#" ++ b` — an
escaped placeholder occurrence at an arbitrary position — and every content
value, no unescaped range found by the scanner overlaps the escaped
occurrence (every range ends inside `a` or starts after the escaped token),
so the escaped occurrence is never substituted; when the string holds at
least one unescaped placeholder occurrence, the replacement pass strips the
escape marker — the escaped occurrence comes out as the bare literal token,
with `a` and `b` each processed around it as usual — and when it holds no
unescaped occurrence, the string passes through unchanged, the escape
marker kept. -/
theorem escaped_placeholder_amended (a b v : String) :
    (∀ r ∈ findUnescapedTokens (a ++ "\\$#" ++ b) placeholder,
        r.1 + r.2 ≤ a.length ∨ a.length + 3 ≤ r.1) ∧
    (findUnescapedTokens (a ++ "\\$#" ++ b) placeholder ≠ [] →
      replacePlaceholderCore (a ++ "\\$#" ++ b) v =
        (String.mk (rrAux v.data placeholder.data a.data 0
            (findUnescapedTokens a placeholder) 0) ++ "$#" ++
          String.mk (rrAux v.data placeholder.data b.data 0
            (findUnescapedTokens b placeholder) 0),
          true)) ∧
    (findUnescapedTokens (a ++ "\\$#" ++ b) placeholder = [] →
      replacePlaceholderCore (a ++ "\\$#" ++ b) v = (a ++ "\\$#" ++ b, false)) := by
  obtain ⟨la⟩ := a
  obtain ⟨lb⟩ := b
  have hdata : ((String.mk la ++ "\\$#" ++ String.mk lb : String)).data =
      la ++ '\\' :: '$' :: '#' :: lb := by
    show (la ++ ['\\', '$', '#']) ++ lb = la ++ '\\' :: '$' :: '#' :: lb
    rw [List.append_assoc]
    rfl
  have hscan : findUnescapedTokens (String.mk la ++ "\\$#" ++ String.mk lb) placeholder =
      tokenRangesAux ['$', '#'] la 0 false ++
        (tokenRangesAux ['$', '#'] lb 0 false).map (fun r => (r.1 + (la.length + 3), r.2)) := by
    show tokenRangesAux ['$', '#']
        ((String.mk la ++ "\\$#" ++ String.mk lb : String)).data 0 false = _
    rw [hdata, tra_split lb la 0 false]
    congr 1
    rw [show (0 : Nat) + la.length + 3 = 0 + (la.length + 3) from by omega]
    exact tra_shift ['$', '#'] (la.length + 3) lb 0 false
  refine ⟨?_, ?_, ?_⟩
  · intro r hr
    rw [hscan] at hr
    rcases List.mem_append.mp hr with h | h
    · left
      have hbd := tra_sound_bound ['$', '#'] la 0 false r h
      have hlen2 := (tra_sound ['$', '#'] la 0 false r h).2.1
      rw [show (['$', '#'] : List Char).length = 2 from rfl] at hbd hlen2
      show r.1 + r.2 ≤ la.length
      omega
    · right
      obtain ⟨r0, hr0, hmap⟩ := List.mem_map.mp h
      subst hmap
      show la.length + 3 ≤ r0.1 + (la.length + 3)
      omega
  · intro hne
    rw [hscan] at hne
    dsimp only [replacePlaceholderCore]
    rw [hscan]
    have hie : (tokenRangesAux ['$', '#'] la 0 false ++
        (tokenRangesAux ['$', '#'] lb 0 false).map
          (fun r => (r.1 + (la.length + 3), r.2))).isEmpty = false := by
      cases h : tokenRangesAux ['$', '#'] la 0 false ++
          (tokenRangesAux ['$', '#'] lb 0 false).map (fun r => (r.1 + (la.length + 3), r.2)) with
      | nil => exact absurd h hne
      | cons x xs => rfl
    rw [hie]
    simp only [Bool.false_eq_true, if_false]
    have hBbig : ∀ r ∈ (tokenRangesAux ['$', '#'] lb 0 false).map
        (fun r => (r.1 + (la.length + 3), r.2)), 0 + la.length + 3 ≤ r.1 := by
      intro r hr
      obtain ⟨r0, hr0, hmap⟩ := List.mem_map.mp hr
      subst hmap
      show 0 + la.length + 3 ≤ r0.1 + (la.length + 3)
      omega
    have hrr : replaceRanges (String.mk la ++ "\\$#" ++ String.mk lb)
        (tokenRangesAux ['$', '#'] la 0 false ++
          (tokenRangesAux ['$', '#'] lb 0 false).map (fun r => (r.1 + (la.length + 3), r.2))) v =
        String.mk (rrAux v.data ['$', '#']
          ((String.mk la ++ "\\$#" ++ String.mk lb : String)).data 0
          (tokenRangesAux ['$', '#'] la 0 false ++
            (tokenRangesAux ['$', '#'] lb 0 false).map
              (fun r => (r.1 + (la.length + 3), r.2))) 0) := by
      cases hA : tokenRangesAux ['$', '#'] la 0 false with
      | nil =>
        cases hBs : tokenRangesAux ['$', '#'] lb 0 false with
        | nil =>
          rw [hA, hBs] at hne
          simp at hne
        | cons rb0 rbtl =>
          have hmem : rb0 ∈ tokenRangesAux ['$', '#'] lb 0 false := by
            rw [hBs]
            exact List.mem_cons_self rb0 rbtl
          obtain ⟨-, hlen2, htok⟩ := tra_sound ['$', '#'] lb 0 false rb0 hmem
          rw [show (['$', '#'] : List Char).length = 2 from rfl] at hlen2 htok
          simp only [Nat.sub_zero] at htok
          have hdrop3 : ∀ (l : List Char) (n : Nat),
              ('\\' :: '$' :: '#' :: l).drop (n + 3) = l.drop n := by
            intro l n
            rw [show n + 3 = n + 1 + 1 + 1 from by omega]
            simp [List.drop_succ_cons]
          have htokC : ((((String.mk la ++ "\\$#" ++ String.mk lb : String)).data.drop
              (rb0.1 + (la.length + 3))).take rb0.2) = ['$', '#'] := by
            rw [hdata, hlen2,
              show rb0.1 + (la.length + 3) = la.length + (rb0.1 + 3) from by omega,
              List.drop_append, hdrop3]
            exact htok
          rw [List.nil_append, List.map_cons]
          simp only [replaceRanges]
          rw [htokC]
      | cons ra0 ratl =>
        have hmem : ra0 ∈ tokenRangesAux ['$', '#'] la 0 false := by
          rw [hA]
          exact List.mem_cons_self ra0 ratl
        have hbd := tra_sound_bound ['$', '#'] la 0 false ra0 hmem
        obtain ⟨-, hlen2, htok⟩ := tra_sound ['$', '#'] la 0 false ra0 hmem
        rw [show (['$', '#'] : List Char).length = 2 from rfl] at hbd hlen2 htok
        simp only [Nat.sub_zero] at htok
        have htokC : ((((String.mk la ++ "\\$#" ++ String.mk lb : String)).data.drop
            ra0.1).take ra0.2) = ['$', '#'] := by
          rw [hdata, hlen2,
            List.drop_append_of_le_length (by omega : ra0.1 ≤ la.length),
            List.take_append_of_le_length
              (by rw [List.length_drop]; omega : 2 ≤ (la.drop ra0.1).length)]
          exact htok
        rw [List.cons_append]
        simp only [replaceRanges]
        rw [htokC]
    rw [hrr, hdata,
      rr_split v.data lb la 0 false
        ((tokenRangesAux ['$', '#'] lb 0 false).map (fun r => (r.1 + (la.length + 3), r.2)))
        hBbig,
      show (0 : Nat) + la.length + 3 = 0 + (la.length + 3) from by omega,
      rra_shift v.data ['$', '#'] (la.length + 3) lb 0 (tokenRangesAux ['$', '#'] lb 0 false) 0,
      ← strcat3]
    rfl
  · intro hz
    dsimp only [replacePlaceholderCore]
    rw [hz]
    rfl

/-- Claim C5, witness: an escaped occurrence mid-string with an unescaped
occurrence after it ("a\$#$#") keeps the escaped token literal while the
unescaped one is substituted; an escaped occurrence at the end with an
unescaped one before it ("$#b\$#") likewise; with no unescaped occurrence
anywhere ("x\$#y") the string is returned unchanged. -/
theorem escaped_placeholder_amended_witness :
    replacePlaceholderCore ("a" ++ "\\$#" ++ "$#") "X" = ("a$#X", true) ∧
      replacePlaceholderCore ("$#b" ++ "\\$#" ++ "") "X" = ("X" ++ "b$#", true) ∧
      replacePlaceholderCore ("x" ++ "\\$#" ++ "y") "X" = ("x\\$#y", false) :=
  ⟨((escaped_placeholder_amended "a" "$#" "X").2.1 (by decide)).trans (by decide),
    ((escaped_placeholder_amended "$#b" "" "X").2.1 (by decide)).trans (by decide),
    ((escaped_placeholder_amended "x" "y" "X").2.2 (by decide)).trans (by decide)⟩

/-- Claim C10 (confirmed): on a node whose value is non-empty and holds at
least one unescaped caret token, `setNodeContent` replaces every unescaped
caret occurrence with the content and returns at once: the value is not
otherwise overwritten, and the attributes — `href` included — are left
untouched whatever the content. -/
theorem setNodeContent_caret (n : Node) (content : String)
    (h1 : n.value ≠ "") (h2 : findUnescapedTokens n.value caret ≠ []) :
    setNodeContent n content =
      n.setValue (replaceRanges n.value (findUnescapedTokens n.value caret) content) := by
  have h3 : (findUnescapedTokens n.value caret).isEmpty = false := by
    cases hq : findUnescapedTokens n.value caret with
    | nil => exact absurd hq h2
    | cons a t => rfl
  dsimp only [setNodeContent]
  rw [if_pos h1, h3]
  simp

/-- Claim C10, witness: both carets of "a|b|c" are replaced, the link
heuristics never run although the node is anchor-shaped and the content is a
URL. -/
theorem setNodeContent_caret_witness :
    setNodeContent (Node.mk "a" "a|b|c" [⟨"href", "q"⟩] none []) "example.com" =
      Node.mk "a" "aexample.combexample.comc" [⟨"href", "q"⟩] none [] :=
  (setNodeContent_caret (Node.mk "a" "a|b|c" [⟨"href", "q"⟩] none []) "example.com"
    (by decide) (by decide)).trans rfl

theorem setNodeContent_no_caret (n : Node) (c : String)
    (hc : findUnescapedTokens n.value caret = []) :
    setNodeContent n c = setNodeContentRest n c := by
  dsimp only [setNodeContent]
  split
  · rw [hc]
    simp
  · rfl

/-- Claim C4 (confirmed): on an anchor-like node (tag name `a`
case-insensitively, or an `href` attribute already declared) whose value
holds no unescaped caret, setting content "example.com" writes
`href = "http://example.com"` and the value; setting "user@example.com"
writes `href = "mailto:user@example.com"` and the value; and content
matching neither the URL nor the email pattern leaves the attributes —
`href` included — untouched while still overwriting the value. -/
theorem setNodeContent_anchor (n : Node)
    (hc : findUnescapedTokens n.value caret = [])
    (ha : (toLowerAscii n.name == "a" || n.hasAttribute "href") = true) :
    setNodeContent n "example.com" =
      (n.setAttribute "href" "http://example.com").setValue "example.com" ∧
    setNodeContent n "user@example.com" =
      (n.setAttribute "href" "mailto:user@example.com").setValue "user@example.com" ∧
    (∀ content : String, reUrlTest content = false → reEmailTest content = false →
      setNodeContent n content = n.setValue content) := by
  refine ⟨?_, ?_, ?_⟩
  · rw [setNodeContent_no_caret n _ hc]
    have hu : reUrlTest "example.com" = true := by decide
    have hp : reProtoTest "example.com" = false := by decide
    have hs : ((if reProtoTest "example.com" = true then "" else "http://") ++ "example.com" :
        String) = "http://example.com" := by rw [hp]; decide
    dsimp only [setNodeContentRest]
    rw [if_pos ha, if_pos hu, hs]
  · rw [setNodeContent_no_caret n _ hc]
    have hu : reUrlTest "user@example.com" = false := by decide
    have he : reEmailTest "user@example.com" = true := by decide
    dsimp only [setNodeContentRest]
    rw [if_pos ha, hu]
    simp only [Bool.false_eq_true, if_false]
    rw [if_pos he]
    have hs : ("mailto:" ++ "user@example.com" : String) = "mailto:user@example.com" := by decide
    rw [hs]
  · intro content h1 h2
    rw [setNodeContent_no_caret n _ hc]
    dsimp only [setNodeContentRest]
    rw [if_pos ha, h1, h2]
    simp

/-- Claim C4, witness: a childless `<a>` node with empty value receives the
three kinds of content. -/
theorem setNodeContent_anchor_witness :
    setNodeContent (Node.mk "a" "" [] none []) "example.com" =
      Node.mk "a" "example.com" [⟨"href", "http://example.com"⟩] none [] ∧
    setNodeContent (Node.mk "a" "" [] none []) "user@example.com" =
      Node.mk "a" "user@example.com" [⟨"href", "mailto:user@example.com"⟩] none [] ∧
    setNodeContent (Node.mk "a" "" [] none []) "hello!!" =
      Node.mk "a" "hello!!" [] none [] := by
  have h := setNodeContent_anchor (Node.mk "a" "" [] none []) (by decide) (by decide)
  exact ⟨h.1.trans rfl, h.2.1.trans rfl,
    (h.2.2 "hello!!" (by decide) (by decide)).trans rfl⟩

theorem iw_no_implicit (content : List String) :
    ∀ (cs : List Node), anyImplicitList cs = false → insertWalkList content cs = (cs, false) := by
  intro cs
  induction cs using insertWalkList.induct content with
  | case1 => intro _; rw [insertWalkList.eq_def]
  | case2 c cs2 n1 ihc ihr =>
    intro h
    rw [anyImplicitList_cons] at h
    simp only [Bool.or_eq_false_iff] at h
    obtain ⟨h1, h2, h3⟩ := h
    have hn1 : n1 = c := dif_neg (by simp [h1])
    rw [hn1] at ihc
    rw [insertWalkList.eq_def]
    simp [h1, withChildren_self, ihc h2, ihr h3]

theorem sdl_shape (content : String) (c : Node) (cs2 : List Node) :
    ∃ d ds, setDeepestList content (c :: cs2) = d :: ds := by
  cases cs2 with
  | nil =>
    cases c with
    | mk nm v a r cs =>
      cases cs with
      | nil =>
        refine ⟨setNodeContent (Node.mk nm v a r []) content, [], ?_⟩
        simp [setDeepestList]
      | cons c0 cs3 =>
        refine ⟨Node.mk nm v a r (setDeepestList content (c0 :: cs3)), [], ?_⟩
        simp [setDeepestList]
  | cons y rest =>
    refine ⟨c, setDeepestList content (y :: rest), ?_⟩
    simp [setDeepestList]

theorem fdl_some : ∀ (cs : List Node), cs ≠ [] → ∃ m, findDeepestList cs = some m := by
  intro cs
  induction cs using findDeepestList.induct with
  | case1 => intro h; contradiction
  | case2 nm v a r =>
    intro _
    exact ⟨Node.mk nm v a r [], by simp [findDeepestList]⟩
  | case3 nm v a r c cs2 ih =>
    intro _
    obtain ⟨m, hm⟩ := ih (by simp)
    exact ⟨m, by simp [findDeepestList, hm]⟩
  | case4 x y rest ih =>
    intro _
    obtain ⟨m, hm⟩ := ih (by simp)
    exact ⟨m, by simp [findDeepestList, hm]⟩

theorem fdl_sdl (content : String) :
    ∀ (cs : List Node), cs ≠ [] →
      findDeepestList (setDeepestList content cs) =
        (findDeepestList cs).map (fun m => setNodeContent m content) := by
  intro cs
  induction cs using setDeepestList.induct content with
  | case1 => intro h; contradiction
  | case2 nm v a r =>
    intro _
    rcases hx : setNodeContent (Node.mk nm v a r []) content with ⟨nm2, v2, a2, r2, cs2⟩
    have hch : cs2 = [] := by
      have h := children_setNodeContent (Node.mk nm v a r []) content
      rw [hx] at h
      simpa using h
    subst hch
    simp [setDeepestList, findDeepestList, hx]
  | case3 nm v a r c cs2 ih =>
    intro _
    obtain ⟨d, ds, hd⟩ := sdl_shape content c cs2
    rw [show setDeepestList content [Node.mk nm v a r (c :: cs2)] =
        [Node.mk nm v a r (setDeepestList content (c :: cs2))] from by simp [setDeepestList]]
    rw [hd]
    rw [show findDeepestList [Node.mk nm v a r (d :: ds)] = findDeepestList (d :: ds) from by
      simp [findDeepestList]]
    rw [← hd, ih (by simp)]
    rw [show findDeepestList [Node.mk nm v a r (c :: cs2)] = findDeepestList (c :: cs2) from by
      simp [findDeepestList]]
  | case4 x y rest ih =>
    intro _
    obtain ⟨d, ds, hd⟩ := sdl_shape content y rest
    rw [show setDeepestList content (x :: y :: rest) =
        x :: setDeepestList content (y :: rest) from by simp [setDeepestList]]
    rw [hd]
    rw [show findDeepestList (x :: d :: ds) = findDeepestList (d :: ds) from by
      simp [findDeepestList]]
    rw [← hd, ih (by simp)]
    rw [show findDeepestList (x :: y :: rest) = findDeepestList (y :: rest) from by
      simp [findDeepestList]]

theorem findDeepest_setDeepest (n : Node) (content : String) :
    findDeepestNode (setDeepestNodeContent n content) =
      setNodeContent (findDeepestNode n) content := by
  cases n with
  | mk nm v a r cs =>
    cases cs with
    | nil =>
      rcases hx : setNodeContent (Node.mk nm v a r []) content with ⟨nm2, v2, a2, r2, cs2⟩
      have hch : cs2 = [] := by
        have h := children_setNodeContent (Node.mk nm v a r []) content
        rw [hx] at h
        simpa using h
      subst hch
      simp [setDeepestNodeContent, findDeepestNode, hx]
    | cons c cs2 =>
      obtain ⟨d, ds, hd⟩ := sdl_shape content c cs2
      obtain ⟨m, hm⟩ := fdl_some (c :: cs2) (by simp)
      have hl := fdl_sdl content (c :: cs2) (by simp)
      rw [hm] at hl
      rw [show setDeepestNodeContent (Node.mk nm v a r (c :: cs2)) content =
          Node.mk nm v a r (setDeepestList content (c :: cs2)) from by simp [setDeepestNodeContent]]
      rw [hd]
      rw [show findDeepestNode (Node.mk nm v a r (d :: ds)) =
          (findDeepestList (d :: ds)).getD (Node.mk nm v a r (d :: ds)) from by
        simp [findDeepestNode]]
      rw [← hd, hl]
      rw [show findDeepestNode (Node.mk nm v a r (c :: cs2)) =
          (findDeepestList (c :: cs2)).getD (Node.mk nm v a r (c :: cs2)) from by
        simp [findDeepestNode]]
      rw [hm]
      simp

/-- Claim C3 (confirmed): on a tree without a single implicit-repeat node,
`insert` with a non-empty content list sets the items, joined with newline,
exactly once — at the deepest node of the whole tree, the node reached from
the root by repeatedly following the last-child link, via `setNodeContent`. -/
theorem insert_no_implicit_fallback (tree : Node) (l : List String)
    (h1 : anyImplicitList tree.children = false) (h2 : l ≠ []) :
    insert tree (ContentArg.list l) = setDeepestNodeContent tree (String.intercalate "\n" l) ∧
    findDeepestNode (insert tree (ContentArg.list l)) =
      setNodeContent (findDeepestNode tree) (String.intercalate "\n" l) := by
  obtain ⟨s, rest, rfl⟩ : ∃ s rest, l = s :: rest := by
    cases l with
    | nil => contradiction
    | cons a b => exact ⟨a, b, rfl⟩
  have hmain : insert tree (ContentArg.list (s :: rest)) =
      setDeepestNodeContent tree (String.intercalate "\n" (s :: rest)) := by
    show insertList tree (s :: rest) = _
    dsimp only [insertList]
    rw [iw_no_implicit (s :: rest) tree.children h1]
    simp [withChildren_self]
  exact ⟨hmain, by rw [hmain, findDeepest_setDeepest]⟩

/-- Claim C3, witness: a two-level tree with no repeat state at all receives
["a", "b"] at its deepest node. -/
theorem insert_no_implicit_fallback_witness :
    insert (Node.mk "div" "" [] none [Node.mk "p" "" [] none []]) (ContentArg.list ["a", "b"]) =
      setDeepestNodeContent (Node.mk "div" "" [] none [Node.mk "p" "" [] none []])
        (String.intercalate "\n" ["a", "b"]) ∧
    findDeepestNode (insert (Node.mk "div" "" [] none [Node.mk "p" "" [] none []])
        (ContentArg.list ["a", "b"])) =
      setNodeContent (findDeepestNode (Node.mk "div" "" [] none [Node.mk "p" "" [] none []]))
        (String.intercalate "\n" ["a", "b"]) :=
  insert_no_implicit_fallback (Node.mk "div" "" [] none [Node.mk "p" "" [] none []])
    ["a", "b"] (by simp [anyImplicitList, isImplicitNode]) (by simp)

theorem rpc_snd (s c : String) :
    (replacePlaceholderCore s c).2 = !(findUnescapedTokens s placeholder).isEmpty := by
  by_cases h : (findUnescapedTokens s placeholder).isEmpty = true
  · simp [replacePlaceholderCore, h]
  · simp [replacePlaceholderCore, h]

theorem rpc_fst_id (s c : String) (h : findUnescapedTokens s placeholder = []) :
    (replacePlaceholderCore s c).1 = s := by
  simp [replacePlaceholderCore, h]

theorem icip_snd (n : Node) (c : String) :
    (insertContentIntoPlaceholder n c).2 = hasPlaceholderNode n := by
  cases n with
  | mk nm v a r cs =>
    simp [insertContentIntoPlaceholder, hasPlaceholderNode, rpc_snd]

theorem icip_fst_name (n : Node) (c : String) :
    (insertContentIntoPlaceholder n c).1.name = n.name := by
  cases n with
  | mk nm v a r cs => simp [insertContentIntoPlaceholder]

theorem icip_fst_rep (n : Node) (c : String) :
    (insertContentIntoPlaceholder n c).1.rep = n.rep := by
  cases n with
  | mk nm v a r cs => simp [insertContentIntoPlaceholder]

theorem icip_fst_id (n : Node) (c : String) (h : hasPlaceholderNode n = false) :
    (insertContentIntoPlaceholder n c).1 = n := by
  cases n with
  | mk nm v a r cs =>
    simp only [hasPlaceholderNode, value_mk, attributes_mk, Bool.or_eq_false_iff] at h
    obtain ⟨h1, h2⟩ := h
    have hv : findUnescapedTokens v placeholder = [] := by
      simpa [List.isEmpty_iff] using h1
    simp only [List.any_eq_false] at h2
    have hmap : List.map (fun x =>
        if x.value = "" then x else (⟨x.name, (replacePlaceholderCore x.value c).1⟩ : Attr)) a
        = a := by
      have hpt : ∀ x ∈ a, (if x.value = "" then x else
          (⟨x.name, (replacePlaceholderCore x.value c).1⟩ : Attr)) = x := by
        intro x hx
        by_cases hxv : x.value = ""
        · simp [hxv]
        · have hfx := h2 x hx
          simp only [ne_eq, bne_iff_ne, Bool.and_eq_true, not_and,
            Bool.not_eq_true] at hfx
          have hfut : findUnescapedTokens x.value placeholder = [] := by
            have hie := hfx hxv
            simpa [List.isEmpty_iff] using hie
          simp [hxv, rpc_fst_id x.value c hfut]
      exact (List.map_congr_left hpt).trans (List.map_id a)
    simp [insertContentIntoPlaceholder, rpc_fst_id v c hv, hmap]

theorem pwl_eq (content : String) :
    ∀ (cs : List Node),
      placeholderWalkList content cs = (phMapList content cs, hasPlaceholderList cs) := by
  intro cs
  induction cs using placeholderWalkList.induct content with
  | case1 => simp [placeholderWalkList, phMapList, hasPlaceholderList]
  | case2 nm v a r cs rest ih1 ih2 =>
    simp [placeholderWalkList, phMapList, hasPlaceholderList, ih1, ih2, icip_snd,
      Bool.or_assoc]

theorem phMapList_id (content : String) :
    ∀ (cs : List Node), hasPlaceholderList cs = false → phMapList content cs = cs := by
  intro cs
  induction cs using phMapList.induct content with
  | case1 => intro _; simp [phMapList]
  | case2 nm v a r cs rest ih1 ih2 =>
    intro h
    simp only [hasPlaceholderList, Bool.or_eq_false_iff] at h
    obtain ⟨h1, h2, h3⟩ := h
    have hicip := icip_fst_id (Node.mk nm v a r cs) content h1
    simp [phMapList, hicip, ih1 h2, ih2 h3, withChildren_self]

/-- Claim C2 (confirmed): `insertContent` replaces every unescaped
placeholder in the node's value, in its non-empty attribute values and,
recursively, in those of every descendant; exactly when no unescaped
placeholder exists anywhere in the subtree, it instead sets the content on
the deepest descendant (the node itself when childless), leaving the
placeholder pass a no-op.  Moreover `insert`'s walk, on meeting a node whose
`repeat.implicit` is set, performs exactly this node content insertion with
`content[node.repeat.index]`, and records that an implicit node was found. -/
theorem insertContent_characterized (n : Node) (content : String) :
    (insertContent n content =
      if hasPlaceholderTree n then phMapTree content n
      else setDeepestNodeContent n content) ∧
    (∀ (l : List String) (rest : List Node), isImplicitNode n = true →
      insertWalkList l (n :: rest) =
        ((insertContent n (l.getD (repIndexOf n) "")).withChildren
            (insertWalkList l (insertContent n (l.getD (repIndexOf n) "")).children).1 ::
          (insertWalkList l rest).1, true)) := by
  refine ⟨?_, ?_⟩
  case refine_2 =>
    intro l rest h
    rw [insertWalkList.eq_def]
    simp [h]
  dsimp only [insertContent, phMapTree, hasPlaceholderTree]
  rw [icip_fst_children n content, pwl_eq content n.children, icip_snd n content]
  dsimp only
  by_cases hc : (hasPlaceholderNode n || hasPlaceholderList n.children) = true
  · rw [if_pos hc, if_pos hc]
  · rw [if_neg hc, if_neg hc]
    have hcf : (hasPlaceholderNode n || hasPlaceholderList n.children) = false := by
      simpa using hc
    simp only [Bool.or_eq_false_iff] at hcf
    obtain ⟨hc1, hc2⟩ := hcf
    rw [icip_fst_id n content hc1, phMapList_id content n.children hc2, withChildren_self]

theorem name_withChildren (m : Node) (cs : List Node) : (m.withChildren cs).name = m.name := by
  cases m with
  | mk nm v a r cs0 => simp

theorem rep_withChildren (m : Node) (cs : List Node) : (m.withChildren cs).rep = m.rep := by
  cases m with
  | mk nm v a r cs0 => simp

/-- Claim C2, witness: the walk on a one-element forest holding an
implicit-repeat node inserts the indexed content item into it and reports
the find. -/
theorem insertContent_characterized_witness :
    insertWalkList ["X"] [Node.mk "li" "" [] (some ⟨some 1, true, 1, 0⟩) []] =
      ((insertContent (Node.mk "li" "" [] (some ⟨some 1, true, 1, 0⟩) [])
          (["X"].getD (repIndexOf (Node.mk "li" "" [] (some ⟨some 1, true, 1, 0⟩) [])) "")).withChildren
          (insertWalkList ["X"]
            (insertContent (Node.mk "li" "" [] (some ⟨some 1, true, 1, 0⟩) [])
              (["X"].getD (repIndexOf (Node.mk "li" "" [] (some ⟨some 1, true, 1, 0⟩) [])) "")).children).1 ::
        (insertWalkList ["X"] ([] : List Node)).1, true) :=
  (insertContent_characterized (Node.mk "li" "" [] (some ⟨some 1, true, 1, 0⟩) []) "").2
    ["X"] [] (by decide)

theorem skel_withChildren (m : Node) (cs : List Node) :
    skel (m.withChildren cs) = Skel.mk m.name m.rep (skelList cs) := by
  cases m with
  | mk nm v a r cs0 => simp [skel]

theorem skel_setValue (n : Node) (v : String) : skel (n.setValue v) = skel n := by
  cases n with
  | mk nm v0 a r cs => simp [skel]

theorem skel_setAttribute (n : Node) (nm v : String) :
    skel (n.setAttribute nm v) = skel n := by
  cases n with
  | mk nm0 v0 a r cs => simp [skel]

theorem skel_setNodeContentRest (n : Node) (c : String) :
    skel (setNodeContentRest n c) = skel n := by
  dsimp only [setNodeContentRest]
  rw [skel_setValue]
  split
  · split
    · rw [skel_setAttribute]
    · split
      · rw [skel_setAttribute]
      · rfl
  · rfl

theorem skel_setNodeContent (n : Node) (c : String) :
    skel (setNodeContent n c) = skel n := by
  dsimp only [setNodeContent]
  split
  · split
    · exact skel_setNodeContentRest n c
    · rw [skel_setValue]
  · exact skel_setNodeContentRest n c

theorem skelList_cons (x : Node) (rest : List Node) :
    skelList (x :: rest) = skel x :: skelList rest := by
  cases x with
  | mk nm v a r cs => simp [skelList, skel]

theorem skelList_sdl (content : String) :
    ∀ (cs : List Node), skelList (setDeepestList content cs) = skelList cs := by
  intro cs
  induction cs using setDeepestList.induct content with
  | case1 => simp [setDeepestList]
  | case2 nm v a r => simp [setDeepestList, skelList_cons, skel_setNodeContent]
  | case3 nm v a r c cs2 ih => simp [setDeepestList, skelList_cons, skel, ih]
  | case4 x y rest ih => simp [setDeepestList, skelList_cons, ih]

theorem skel_sdnc (n : Node) (c : String) :
    skel (setDeepestNodeContent n c) = skel n := by
  cases n with
  | mk nm v a r cs =>
    cases cs with
    | nil => simp [setDeepestNodeContent, skel_setNodeContent]
    | cons c0 cs2 => simp [setDeepestNodeContent, skel, skelList_sdl]

theorem skelList_pwl (content : String) :
    ∀ (cs : List Node), skelList (placeholderWalkList content cs).1 = skelList cs := by
  intro cs
  induction cs using placeholderWalkList.induct content with
  | case1 => simp [placeholderWalkList, skelList]
  | case2 nm v a r cs rest ih1 ih2 =>
    simp [placeholderWalkList, skelList_cons, skel_withChildren, icip_fst_name,
      icip_fst_rep, name_withChildren, rep_withChildren, children_withChildren,
      ih1, ih2, skel]

theorem skel_insertContent (n : Node) (c : String) :
    skel (insertContent n c) = skel n := by
  dsimp only [insertContent]
  split
  · rw [skel_withChildren]
    simp [skelList_pwl, icip_fst_children, icip_fst_name, icip_fst_rep, skel]
  · rw [skel_sdnc, skel_withChildren]
    simp [skelList_pwl, icip_fst_children, icip_fst_name, icip_fst_rep, skel]

theorem skel_eq_parts {m n : Node} (h : skel m = skel n) :
    m.name = n.name ∧ m.rep = n.rep ∧ skelList m.children = skelList n.children := by
  simp only [skel, Skel.mk.injEq] at h
  exact ⟨h.1, h.2.1, h.2.2⟩

theorem skelList_iw (l : List String) :
    ∀ (cs : List Node), skelList (insertWalkList l cs).1 = skelList cs := by
  intro cs
  induction cs using insertWalkList.induct l with
  | case1 => rw [insertWalkList.eq_def]
  | case2 c cs2 n1 ihc ihr =>
    have hskel : skel (if isImplicitNode c = true then
        insertContent c (l.getD (repIndexOf c) "") else c) = skel c := by
      split
      · exact skel_insertContent ..
      · rfl
    obtain ⟨e1, e2, e3⟩ := skel_eq_parts hskel
    simp only [show n1 = (if isImplicitNode c = true then
      insertContent c (l.getD (repIndexOf c) "") else c) from rfl] at ihc
    rw [insertWalkList.eq_def]
    dsimp only
    rw [skelList_cons, skelList_cons, skel_withChildren, ihc]
    rw [e1, e2, e3, ihr]
    simp [skel]

/-- Claim C9 (confirmed): `insert` never creates or removes nodes — the
skeleton of the tree (its node set with the parent/children relations, tag
names and repeat states) is identical before and after; only node values
and attributes may change. -/
theorem insert_preserves_skeleton (tree : Node) (l : List String) :
    skel (insert tree (ContentArg.list l)) = skel tree := by
  cases l with
  | nil => rfl
  | cons s rest =>
    show skel (insertList tree (s :: rest)) = skel tree
    dsimp only [insertList]
    split
    · rw [skel_withChildren]
      simp [skelList_iw, skel]
    · rw [skel_sdnc, skel_withChildren]
      simp [skelList_iw, skel]

end Emmet
